import Mathlib

/-!
Verification of the classification-tree reconciliation engine in
`glottolog3/scripts/compute_tree_changes.py`.

The script is embedded shallowly:

* Python (ordered) dicts become insertion-ordered association lists
  (`pyInsert` replaces a present key in place and appends a new key at the
  end, exactly like CPython dict assignment).
* Python sets of leaf codes become canonical sorted duplicate-free lists
  of strings; set difference, intersection and subset tests are the
  corresponding list operations.
* Fallible code (assertions, `KeyError`, `IndexError`, unpacking errors)
  returns `Except String`.
* Library functions whose source is not part of this repository
  (`unescape` from `glottolog3.lib.bibtex`, `glottocode` from
  `glottolog3.lib.util`) are passed as opaque function parameters.
-/

deriving instance DecidableEq for Except

namespace G3

/-! ## Association lists modelling Python dicts -/

/-- Lookup of a key in an insertion-ordered association list
(`d[k]` / `k in d` in Python). -/
def alookup {α β : Type} [DecidableEq α] (k : α) : List (α × β) → Option β
  | [] => none
  | (k2, v) :: rest => if k2 = k then some v else alookup k rest

/-- Python dict assignment `d[k] = v`: replace the value of a present key in
place, append a new key at the end. -/
def pyInsert {α β : Type} [DecidableEq α] (m : List (α × β)) (k : α) (v : β) :
    List (α × β) :=
  match m with
  | [] => [(k, v)]
  | (k2, v2) :: rest => if k2 = k then (k, v) :: rest else (k2, v2) :: pyInsert rest k v

/-- Python `d.update(ops)`: perform the assignments of `ops` in order. -/
def pyUpdate {α β : Type} [DecidableEq α] (m : List (α × β)) (ops : List (α × β)) :
    List (α × β) :=
  ops.foldl (fun acc kv => pyInsert acc kv.1 kv.2) m

/-- Keys of an association list, in insertion order (`d.keys()`). -/
def akeys {α β : Type} (m : List (α × β)) : List α := m.map (fun kv => kv.1)

/-- Python `del d[k]`: remove the binding of `k` (if present). -/
def pyDelete {α β : Type} [DecidableEq α] (m : List (α × β)) (k : α) : List (α × β) :=
  match m with
  | [] => []
  | (k2, v2) :: rest => if k2 = k then rest else (k2, v2) :: pyDelete rest k

/-! ## Stable insertion sort modelling Python `sorted` -/

/-- Insert `x` into a sorted list, after all elements not strictly greater;
used to model Python's stable `sorted`. -/
def insertSorted {α : Type} (lt : α → α → Bool) (x : α) : List α → List α
  | [] => [x]
  | y :: ys => if lt x y then x :: y :: ys else y :: insertSorted lt x ys

/-- Stable sort by a strict-order test, modelling Python `sorted`. -/
def sortBy {α : Type} (lt : α → α → Bool) (l : List α) : List α :=
  l.foldl (fun acc x => insertSorted lt x acc) []

/-- Strict lexicographic comparison of strings (Python string `<`). -/
def strLt (a b : String) : Bool := decide (a.data < b.data)

/-- Python `sorted` on a list of strings. -/
def pysorted (l : List String) : List String := sortBy strLt l

/-! ## Character-list string primitives

Python string operations are modelled over the character lists underlying
Lean strings, with structural recursion throughout so that all of them
evaluate inside the kernel. -/

/-- Python `s.split(sep)` for a one-character separator. -/
def splitOnChar (sep : Char) : List Char → List (List Char)
  | [] => [[]]
  | c :: rest =>
    if c = sep then [] :: splitOnChar sep rest
    else
      match splitOnChar sep rest with
      | [] => [[c]]
      | h :: t => (c :: h) :: t

/-- Python `s.split(sep)` returning strings. -/
def pySplit (sep : Char) (s : String) : List String :=
  (splitOnChar sep s.data).map (fun l => String.mk l)

/-- Python `s.strip()` (restricted to the ASCII whitespace characters
space, tab, carriage return and line feed, the ones occurring in the
classification files). -/
def pyStrip (s : String) : String :=
  String.mk (((s.data.dropWhile Char.isWhitespace).reverse.dropWhile Char.isWhitespace).reverse)

/-- Fuel-driven replacement of non-overlapping occurrences of a pattern,
left to right, on character lists. -/
def replaceGo (pat rep : List Char) : Nat → List Char → List Char
  | 0, s => s
  | _ + 1, [] => []
  | fuel + 1, c :: rest =>
    if pat.isPrefixOf (c :: rest) then rep ++ replaceGo pat rep fuel ((c :: rest).drop pat.length)
    else c :: replaceGo pat rep fuel rest

/-- Python `s.replace(pat, rep)` for a non-empty pattern. -/
def pyReplace (s pat rep : String) : String :=
  String.mk (replaceGo pat.data rep.data s.data.length s.data)

/-- Python `s.startswith(pre)`. -/
def pyStartsWith (s pre : String) : Bool := pre.data.isPrefixOf s.data

/-- Python `s.lower()` (ASCII). -/
def pyLower (s : String) : String := String.mk (s.data.map Char.toLower)

/-- Python `sep.join(parts)`. -/
def pyJoin (sep : String) (parts : List String) : String :=
  String.mk (List.intercalate sep.data (parts.map String.data))

/-! ## Exception-propagating folds over lists

Loops whose bodies can raise are modelled with a structurally recursive
fold into `Except`, and loops appending one result per element with a
structurally recursive traversal. -/

/-- Left fold whose step can raise; the first raise aborts the loop. -/
def foldE {σ α : Type} (f : σ → α → Except String σ) : σ → List α → Except String σ
  | s, [] => Except.ok s
  | s, x :: xs =>
    match f s x with
    | Except.ok s2 => foldE f s2 xs
    | Except.error e => Except.error e

/-- Traversal collecting one result per element; the first raise aborts. -/
def exceptMapM {α β : Type} (f : α → Except String β) : List α → Except String (List β)
  | [] => Except.ok []
  | x :: xs =>
    match f x with
    | Except.ok y =>
      match exceptMapM f xs with
      | Except.ok ys => Except.ok (y :: ys)
      | Except.error e => Except.error e
    | Except.error e => Except.error e

/-! ## The classification-file parser (`split_families`) -/

/-- Branches are ordered tuples of ancestor family names. -/
abbrev Branch := List String

/-- Result of `normalized_branch`: branch, status, comment. -/
abbrev NormBranch := Branch × String × String

/-- Leaf maps (`{code: name}` dicts) of a family block. -/
abbrev Leafs := List (String × String)

/-- Components of a branch header line: split on commas, strip each
component, replace underscores by spaces, apply the external `unescape`
(line 32 of the source). -/
def branchComponents (unescape : String → String) (line : String) : List String :=
  (pySplit ',' line).map (fun n => unescape (pyReplace (pyStrip n) "_" " "))

/-- Fixed name-substitution table of `normalized_branch` (`name_map`). -/
def nameMap (s : String) : Option String :=
  if s = "Deaf Sign Language" then some "Sign Languages"
  else if s = "Unclassifiable" then some "Unclassified"
  else if s = "Artificial Language" then some "Artificial Language"
  else if s = "Mixed Language" then some "Mixed Language"
  else if s = "Pidgin" then some "Pidgin"
  else none

/-- Embedding of `normalized_branch` (source lines 28-65): parse a header
line into (branch, status, comment). -/
def normalizedBranch (unescape : String → String) (line : String) : NormBranch :=
  let branch := branchComponents unescape line
  match branch with
  | [] => ([], "established", "")
  | b0 :: brest =>
    match nameMap b0 with
    | some mapped =>
      ([mapped],
       if b0 ≠ "Unattested" then "established" else "unattested",
       pyJoin ", " brest)
    | none =>
      if b0 = "Spurious" ∨ b0 = "Speech Register" ∨ b0 = "Unattested" then
        let status := if b0 = "Speech Register" then "established" else pyLower b0
        let branch2 := if b0 = "Unattested" ∧ brest = [] then ["Unclassified"] else brest
        match branch2 with
        | c0 :: crest =>
          if c0 = "Retired" then (crest, status ++ " retired", "")
          else (branch2, status, "")
        | [] => ([], status, "")
      else (b0 :: brest, "established", "")

/-- Validity of a leaf code as enforced by the assertions at source lines
75-76: non-empty, and either exactly 3 characters or matching the regular
expression `NOCODE\_[a-zA-Z\-\_]+$`. -/
def validCode (c : String) : Bool :=
  (!decide (c = "")) && (decide (c.data.length = 3) ||
    (pyStartsWith c "NOCODE_" && (!decide (c.data.drop 7 = [])) &&
     (c.data.drop 7).all (fun ch => ch.isAlpha || decide (ch = '-') || decide (ch = '_'))))

/-- Extraction of the code from the part of a leaf line after the opening
bracket (source lines 73-74): take the text before the first closing
bracket, strip backslashes and quote characters, normalize the prefix
`NOCODE-` to `NOCODE_`. -/
def extractCode (rawAfterBracket : String) : String :=
  let c0 := (pySplit ']' rawAfterBracket).headD ""
  let c1 := pyReplace (pyReplace c0 "\\" "") "\"" ""
  let c2 := pyReplace c1 (String.mk [Char.ofNat 39]) ""
  pyReplace c2 "NOCODE-" "NOCODE_"

/-- Family blocks produced by `split_families`: normalized branch header
plus the leaf map of the block. -/
structure FamBlock where
  branch : Branch
  status : String
  comment : String
  leafs : Leafs
deriving DecidableEq, Repr

/-- Loop body of the `split_families` generator (source lines 67-82),
processing the remaining lines with the current open block and the blocks
already emitted. -/
def sfLoop (unescape : String → String) :
    List String → Option FamBlock → List FamBlock → Except String (List FamBlock)
  | [], cur, acc =>
    match cur with
    | some fam => Except.ok (acc ++ [fam])
    | none => Except.error "first yielded family is None"
  | line :: rest, cur, acc =>
    if pyStrip line = "" then sfLoop unescape rest cur acc
    else if pyStartsWith line "  " then
      match cur with
      | none => Except.error "leaf line before any family header"
      | some fam =>
        match pySplit '[' (pyStrip line) with
        | [name0, rawCode] =>
          let code := extractCode rawCode
          if code = "" then Except.error "assert code failed"
          else if validCode code then
            sfLoop unescape rest
              (some { fam with
                       leafs := pyInsert fam.leafs code
                         (unescape (pyReplace (pyStrip name0) "_" " ")) })
              acc
          else Except.error "assert len or NOCODE pattern failed"
        | _ => Except.error "leaf line does not split into name and code"
    else
      let nb := normalizedBranch unescape line
      match cur with
      | some fam =>
        sfLoop unescape rest
          (some { branch := nb.1, status := nb.2.1, comment := nb.2.2, leafs := [] })
          (acc ++ [fam])
      | none =>
        sfLoop unescape rest
          (some { branch := nb.1, status := nb.2.1, comment := nb.2.2, leafs := [] })
          acc

/-- Embedding of `split_families` (source lines 25-82): parse the whole
file into the list of yielded (branch, leafs) blocks. -/
def splitFamilies (unescape : String → String) (input : String) :
    Except String (List FamBlock) :=
  sfLoop unescape (pySplit (Char.ofNat 10) input) none []

/-! ## `parse_families` (source lines 85-101) -/

/-- Entry of the `languages` map: `[tuple(branch), status, name, comment]`
with the branch made optional because `main` later overwrites it with
`None` for isolates. -/
structure LangEntry where
  hnode : Option Branch
  status : String
  name : String
  comment : String
deriving DecidableEq, Repr

/-- Accumulated `families` map: branch tuple to leaf map. -/
abbrev Families := List (Branch × Leafs)

/-- Accumulated `languages` map: leaf code to its entry. -/
abbrev Languages := List (String × LangEntry)

/-- Non-empty prefixes `branch[:i+1]` of a branch, shortest first
(source lines 96-97). -/
def prefixesOf (b : Branch) : List Branch :=
  (List.range b.length).map (fun i => b.take (i + 1))

/-- Update of a single prefix entry (source lines 98-101): merge the
block's leaf map into an existing entry or create the entry as a copy of
the leaf map. -/
def famUpd (leafs : Leafs) (acc : Families) (p : Branch) : Families :=
  pyInsert acc p
    (match alookup p acc with
     | some m => pyUpdate m leafs
     | none => leafs)

/-- Family-map part of one `parse_families` loop iteration (source lines
96-101): update every non-empty prefix of the branch with the block's
leaf map, creating missing entries. -/
def famStep (fam : Families) (br : Branch) (leafs : Leafs) : Families :=
  (prefixesOf br).foldl (famUpd leafs) fam

/-- Per-block assignments to the `languages` map (source lines 92-94):
one entry per leaf with the block's branch, status and comment. -/
def langOps (b : FamBlock) : List (String × LangEntry) :=
  b.leafs.map (fun cn => (cn.1, LangEntry.mk (some b.branch) b.status cn.2 b.comment))

/-- Language-map part of one `parse_families` loop iteration (source lines
92-94). -/
def langStep (langs : Languages) (b : FamBlock) : Languages :=
  pyUpdate langs (langOps b)

/-- Concatenated `languages` assignments of a whole block list, in parse
order. -/
def allLangOps (blocks : List FamBlock) : List (String × LangEntry) :=
  blocks.foldr (fun b acc => langOps b ++ acc) []

/-- Concatenated leaf maps of the blocks whose branch has `p` among its
non-empty prefixes, in parse order: the sequence of updates the entry of
`p` receives. -/
def touchOps (p : Branch) (blocks : List FamBlock) : Leafs :=
  blocks.foldr (fun b acc => if p ∈ prefixesOf b.branch then b.leafs ++ acc else acc) []

/-- Effect of one parsed block on the entry of a fixed prefix `p` of the
family map, seen through `alookup`. -/
def gpStep (p : Branch) (acc : Option Leafs) (b : FamBlock) : Option Leafs :=
  if p ∈ prefixesOf b.branch then
    some (match acc with | some m => pyUpdate m b.leafs | none => b.leafs)
  else acc

/-- Embedding of the body of `parse_families` over the blocks yielded by
`split_families`, appending to already populated maps. -/
def parseFamilies (blocks : List FamBlock) (st : Families × Languages) :
    Families × Languages :=
  blocks.foldl (fun fl b => (famStep fl.1 b.branch b.leafs, langStep fl.2 b)) st

/-! ## Node matcher (`match_nodes`, source lines 104-200) -/

/-- Old-classification node as keyed in `glnodes` (source line 318): the
tuple `(pk, level, name, father_pk)`, so that in `match_nodes`
`node[0]` is `pk`, `node[2]` is `name` and `node[3]` is `father_pk`. -/
structure GLNode where
  pk : Nat
  level : Option String
  name : String
  father : Option Nat
deriving DecidableEq, Repr

/-- Embedding of the `Migration` record (source lines 104-109): the two
optional keyword attributes `rename` and `pointer` are made explicit
fields with their `getattr` defaults. -/
structure Migration where
  pk : Nat
  hid : Option Branch
  rename : Bool
  pointer : Option Branch
deriving DecidableEq, Repr

/-- Mapping of sorted leaf tuples to branches (`rnodes` and `urnodes`). -/
abbrev RNodes := List (List String × Branch)

/-- Name-to-branches multimap built in `main` (source lines 239-246). -/
abbrev NamesMap := List (String × List Branch)

/-- Python set difference on canonical duplicate-free lists. -/
def setDiff (a b : List String) : List String := a.filter (fun x => !(b.contains x))

/-- Python set intersection on canonical duplicate-free lists. -/
def setInter (a b : List String) : List String := a.filter (fun x => b.contains x)

/-- Python `issubset` on lists viewed as sets. -/
def isSubsetL (a b : List String) : Bool := a.all (fun x => b.contains x)

/-- Acceptance test of the approximate-match scan (source lines 161-168):
tolerance is `divmod(len(nleafset), 10)[0]`, sizes must be within the
tolerance, and one of the two set differences must be within it too. -/
def approxAccept (leafs : List String) (nl : List String) : Bool :=
  let allowed := nl.length / 10
  decide (((leafs.length : Int) - (nl.length : Int)).natAbs ≤ allowed) &&
    (decide ((setDiff leafs nl).length ≤ allowed) ||
     decide ((setDiff nl leafs).length ≤ allowed))

/-- First new leaf-set accepted by the approximate-match scan over the
ordered `leafsets` list. -/
def findApprox (leafs : List String) (leafsets : List (List String)) :
    Option (List String) :=
  leafsets.find? (approxAccept leafs)

/-- Fold computing `max_intersection` (source lines 188-191): starts from
the empty set and replaces it whenever a new leaf-set has a strictly
bigger intersection with `leafset`. -/
def maxIntersection (leafset : List String) (leafsets : List (List String)) :
    List String :=
  leafsets.foldl
    (fun best nl =>
      if (setInter nl leafset).length > (setInter leafset best).length then nl else best)
    []

/-- Leaf-set fallback of `match_nodes` for a single old node (source lines
180-199): smallest superset first, then largest intersection, else a bare
retirement. Python's falsy `None` and falsy empty set are both
represented by the empty list. -/
def fallbackCandidate (leafset : List String) (leafsets : List (List String)) :
    List String :=
  if ((leafsets.find? (fun nl => isSubsetL leafset nl)).getD []).isEmpty then
    maxIntersection leafset leafsets
  else (leafsets.find? (fun nl => isSubsetL leafset nl)).getD []

def fallbackByLeafset (leafset : List String) (rnodes : RNodes)
    (leafsets : List (List String)) (node : GLNode) : Except String Migration :=
  if (fallbackCandidate leafset leafsets).isEmpty then
    Except.ok ⟨node.pk, none, false, none⟩
  else
    match alookup (pysorted (fallbackCandidate leafset leafsets)) rnodes with
    | some cp => Except.ok ⟨node.pk, none, false, some cp⟩
    | none => Except.error "KeyError rnodes of sorted mleafset"

/-- Per-node fallback of `match_nodes` (source lines 174-199): a uniquely
identifying family name wins, otherwise fall back to leaf-sets. -/
def fallbackOne (leafset : List String) (rnodes : RNodes)
    (leafsets : List (List String)) (names : NamesMap) (node : GLNode) :
    Except String Migration :=
  match alookup node.name names with
  | some [b0] => Except.ok ⟨node.pk, none, false, some b0⟩
  | some [] => fallbackByLeafset leafset rnodes leafsets node
  | some (_ :: _ :: _) => fallbackByLeafset leafset rnodes leafsets node
  | none => fallbackByLeafset leafset rnodes leafsets node

/-- Exact-match instruction list (source lines 147-154): first node is
matched (flagged for renaming when it has company), the remaining nodes
are retired with a pointer to the matched branch. -/
def exactMatchTodo (rn : Branch) : List GLNode → Except String (List Migration)
  | [] => Except.error "IndexError nodes 0"
  | n0 :: rest =>
    Except.ok (Migration.mk n0.pk (some rn) (decide (rest.length + 1 > 1)) none ::
      rest.map (fun n => Migration.mk n.pk none false (some rn)))

/-- Embedding of `match_nodes` (source lines 118-200). -/
def matchNodes (leafs : List String) (nodes : List GLNode) (rnodes : RNodes)
    (urnodes : RNodes) (leafsets : List (List String)) (names : NamesMap) :
    Except String (List Migration) :=
  match alookup leafs rnodes with
  | some rn =>
    match alookup leafs urnodes with
    | some urn =>
      if nodes.length ≤ 2 then
        match nodes with
        | [a, b] =>
          if a.father = some b.pk then
            Except.ok [Migration.mk b.pk (some rn) false none,
                       Migration.mk a.pk (some urn) false none]
          else if b.father = some a.pk then
            Except.ok [Migration.mk a.pk (some rn) false none,
                       Migration.mk b.pk (some urn) false none]
          else Except.error "assert unode father eq node pk failed"
        | _ => exactMatchTodo rn nodes
      else Except.error "assert len nodes le 2 failed"
    | none => exactMatchTodo rn nodes
  | none =>
    let leafset := leafs
    if leafs.length > 10 then
      match findApprox leafs leafsets with
      | some nl =>
        match alookup (pysorted nl) rnodes with
        | some cp =>
          Except.ok (nodes.map (fun n => Migration.mk n.pk none false (some cp)))
        | none => Except.error "KeyError rnodes of sorted nleafset"
      | none => exceptMapM (fallbackOne leafset rnodes leafsets names) nodes
    else exceptMapM (fallbackOne leafset rnodes leafsets names) nodes

/-! ## Instruction values and `languoid` (source lines 112-115) -/

/-- JSON-serializable values stored in instruction dicts. -/
inductive Value where
  | int (n : Nat)
  | str (s : String)
  | bool (b : Bool)
  | null
deriving DecidableEq, Repr

/-- Instruction objects are Python dicts from string keys to values. -/
abbrev Instr := List (String × Value)

/-- Embedding of `languoid` (source lines 112-115): base dict with the
five default entries, updated with the keyword arguments. -/
def languoid (pk : Value) (level : String) (kw : List (String × Value)) : Instr :=
  pyUpdate
    [("pk", pk), ("level", Value.str level), ("active", Value.bool true),
     ("father_pk", Value.null), ("status", Value.str "established")]
    kw

/-! ## The `main` pipeline (source lines 203-435), with all data read from
the database or from files passed in as explicit parameters -/

/-- Python truthiness of an optional branch tuple: `None` and the empty
tuple are falsy. -/
def truthyBranch : Option Branch → Bool
  | none => false
  | some b => !b.isEmpty

/-- State of the collapsing pass (source lines 225-237). -/
structure CollapseState where
  families : Families
  languages : Languages
  isolateNames : List (String × String)
  collapsedNames : List (String × String)

/-- Overwrite of slot 0 of a `languages` entry (source lines 232 and 235). -/
def setHnode (langs : Languages) (code : String) (h : Option Branch) :
    Except String Languages :=
  match alookup code langs with
  | some e => Except.ok (pyInsert langs code { e with hnode := h })
  | none => Except.error "KeyError languages"

/-- Embedding of the isolate/singleton collapsing pass (source lines
225-237), iterating over a snapshot of the family keys. -/
def collapsePass (fam0 : Families) (langs0 : Languages) :
    Except String CollapseState :=
  foldE
    (fun st key =>
      match alookup key st.families with
      | none => Except.error "KeyError families"
      | some leafs =>
        if leafs.length = 1 then
          match leafs with
          | [(c, _)] =>
            match key with
            | [k0] => do
              let langs2 ← setHnode st.languages c none
              Except.ok (CollapseState.mk (pyDelete st.families key) langs2
                (pyInsert st.isolateNames k0 c) st.collapsedNames)
            | _ =>
              match key.getLast? with
              | some klast => do
                let langs2 ← setHnode st.languages c (some key.dropLast)
                Except.ok (CollapseState.mk (pyDelete st.families key) langs2
                  st.isolateNames (pyInsert st.collapsedNames klast c))
              | none => Except.error "IndexError key -1"
          | _ => Except.error "unreachable singleton"
        else Except.ok st)
    (CollapseState.mk fam0 langs0 [] []) (akeys fam0)

/-- Embedding of the family-name multimap construction (source lines
239-246). -/
def buildNames (fam : Families) : Except String NamesMap :=
  foldE
    (fun names branch =>
      match branch.getLast? with
      | none => Except.error "IndexError branch -1"
      | some name =>
        match alookup name names with
        | some bs => Except.ok (pyInsert names name (bs ++ [branch]))
        | none => Except.ok (pyInsert names name [branch]))
    [] (akeys fam)

/-- Result of the new-language loop (source lines 251-272). -/
structure NewLangResult where
  ncodes : List (String × Nat)
  out : List Instr
  maxid : Nat

/-- Embedding of the new-language loop (source lines 251-272): every
parsed language without a database pk becomes a fresh instruction, with
coordinates merged in when available. The external `glottocode` function
is the opaque parameter `gc`. -/
def newLangAttrs (gc : String → String) (maxid : Nat) (code : String) (e : LangEntry) :
    Instr :=
  languoid (Value.int maxid) "language"
    [("hid", Value.str code), ("id", Value.str (gc e.name)),
     ("name", Value.str e.name), ("hname", Value.str e.name),
     ("status", Value.str e.status),
     ("globalclassificationcomment",
      if e.comment = "" then Value.null else Value.str e.comment)]

/-- One iteration of the new-language loop (source lines 253-272). -/
def newLangStep (codes : List (String × Nat)) (coords : List (String × Value × Value))
    (gc : String → String) (st : NewLangResult) (cl : String × LangEntry) :
    NewLangResult :=
  if (alookup cl.1 codes).isSome then st
  else
    match alookup cl.1 coords with
    | some lonlat =>
      NewLangResult.mk (pyInsert st.ncodes cl.1 (st.maxid + 1))
        (st.out ++ [pyInsert (pyInsert (newLangAttrs gc (st.maxid + 1) cl.1 cl.2)
          "longitude" lonlat.1) "latitude" lonlat.2])
        (st.maxid + 1)
    | none =>
      NewLangResult.mk (pyInsert st.ncodes cl.1 (st.maxid + 1))
        (st.out ++ [newLangAttrs gc (st.maxid + 1) cl.1 cl.2])
        (st.maxid + 1)

/-- Embedding of the new-language loop as a fold of its step. -/
def newLanguages (codes : List (String × Nat)) (coords : List (String × Value × Value))
    (gc : String → String) (langs : Languages) (maxid0 : Nat) : NewLangResult :=
  langs.foldl (newLangStep codes coords gc) (NewLangResult.mk [] [] maxid0)

/-- Embedding of the `rnodes`/`urnodes` construction (source lines
274-292) with its consistency assertions. -/
def buildRnodes (codes : List (String × Nat)) (fam : Families) :
    Except String (RNodes × RNodes) :=
  foldE
    (fun ru f =>
      match f.1 with
      | [] => Except.error "IndexError family 0"
      | f0 :: _ =>
        if f0 = "Speech Register" ∨ f0 = "Spurious" then
          Except.error "assert family head not a marker failed"
        else
          let leafs := pysorted ((akeys f.2).filter (fun c => (alookup c codes).isSome))
          if leafs.isEmpty then Except.error "assert leafs failed"
          else
            match alookup leafs ru.1 with
            | some rbranch =>
              if (f.1.filter (fun n => pyStartsWith n "Unclassified")).isEmpty then
                Except.error "assert some component is Unclassified failed"
              else if !(isSubsetL rbranch f.1) then
                Except.error "assert rset subset of fset failed"
              else if (alookup leafs ru.2).isSome then
                Except.error "assert leafs not already in urnodes failed"
              else Except.ok (ru.1, pyInsert ru.2 leafs f.1)
            | none => Except.ok (pyInsert ru.1 leafs f.1, ru.2))
    ([], []) fam

/-- Embedding of the `leafsets` construction (source line 300): the sorted
leaf tuples of `rnodes` ordered by ascending size with Python's stable
sort. -/
def mkLeafsets (rnodes : RNodes) : List (List String) :=
  sortBy (fun a b => decide (a.length < b.length)) (akeys rnodes)

/-- Result of the old-tree loading loop (source lines 302-326). -/
structure LoadResult where
  glnodes : List (GLNode × List String)
  todo : List Migration

/-- Embedding of the old-tree loading loop (source lines 313-325): rows
with leaves enter `glnodes`; leafless families are retired immediately,
with a name-based pointer when the name is unique. The per-node closure
query is the parameter `leafHids`. -/
def loadGlnodes (glrows : List GLNode) (leafHids : Nat → List String)
    (names : NamesMap) : LoadResult :=
  glrows.foldl
    (fun st row =>
      let leafs := leafHids row.pk
      if !leafs.isEmpty then
        LoadResult.mk (pyInsert st.glnodes row (pysorted leafs)) st.todo
      else
        match alookup row.name names with
        | some [b0] => LoadResult.mk st.glnodes (st.todo ++ [Migration.mk row.pk none false (some b0)])
        | _ => LoadResult.mk st.glnodes (st.todo ++ [Migration.mk row.pk none false none]))
    (LoadResult.mk [] [])

/-- Embedding of the `rglnodes` grouping (source lines 328-333): leaf
tuples mapped to the list of old nodes carrying them. -/
def buildRglnodes (glnodes : List (GLNode × List String)) :
    List (List String × List GLNode) :=
  glnodes.foldl
    (fun r nl =>
      match alookup nl.2 r with
      | some ns => pyInsert r nl.2 (ns ++ [nl.1])
      | none => pyInsert r nl.2 [nl.1])
    []

/-- Embedding of the matching loop (source lines 336-339). -/
def matchAll (rgl : List (List String × List GLNode)) (rnodes urnodes : RNodes)
    (leafsets : List (List String)) (names : NamesMap) (todo0 : List Migration) :
    Except String (List Migration) :=
  foldE
    (fun todo ln =>
      if ln.1.isEmpty then Except.error "assert leafs failed"
      else if ln.2.isEmpty then Except.error "assert nodes failed"
      else do
        let ms ← matchNodes ln.1 ln.2 rnodes urnodes leafsets names
        Except.ok (todo ++ ms))
    todo0 rgl

/-- Embedding of the exact-match mapping compilation (source lines
341-346): `branch_to_pk` collects the pk of every migration with a truthy
`hid`, asserting uniqueness. -/
def b2pkStep (b2pk : List (Branch × Nat)) (m : Migration) :
    Except String (List (Branch × Nat)) :=
  match m.hid with
  | some h =>
    if h.isEmpty then Except.ok b2pk
    else if (alookup h b2pk).isSome then
      Except.error "assert hid not already in branch to pk failed"
    else Except.ok (pyInsert b2pk h m.pk)
  | none => Except.ok b2pk

/-- Embedding of the exact-match mapping compilation as a fold of its
step. -/
def buildBranchToPk (todo : List Migration) : Except String (List (Branch × Nat)) :=
  foldE b2pkStep [] todo

/-- Strict lexicographic comparison of branches (Python tuple `<` on
tuples of strings). -/
def branchLt : Branch → Branch → Bool
  | [], [] => false
  | [], _ :: _ => true
  | _ :: _, [] => false
  | x :: xs, y :: ys => if strLt x y then true else if strLt y x then false else branchLt xs ys

/-- Breadth-first ordering of the new-classification branches (source line
349): `sorted(families.keys(), key=lambda b: (len(b), b))`. -/
def sortedBranches (fam : Families) : List Branch :=
  sortBy
    (fun a b => decide (a.length < b.length) ||
      (decide (a.length = b.length) && branchLt a b))
    (akeys fam)

/-- State threaded through the new-family emission loop. -/
structure EmitNewState where
  maxid : Nat
  b2pk : List (Branch × Nat)
  lnames : List (Nat × String)
  out : List Instr

/-- Embedding of the new-family emission loop (source lines 348-375):
branches without a matched pk get fresh ids in breadth-first order, and a
parent pk is attached for non-root branches. -/
def emitNewChk (rgl : List (List String × List GLNode)) (todo : List Migration)
    (hnode : Branch) (t : List String) : Except String Unit :=
  match alookup t rgl with
  | some ns =>
    if (hnode.filter (fun n => pyStartsWith n "Unclassified")).isEmpty then
      Except.error "assert some component is Unclassified failed"
    else
      match ns with
      | [] => Except.error "IndexError rglnodes t 0"
      | n0 :: _ =>
        if ((todo.filter (fun m => truthyBranch m.hid)).map (fun m => m.pk)).contains n0.pk then
          Except.ok ()
        else Except.error "assert existing family mapped elsewhere failed"
  | none => Except.ok ()

/-- Attributes of a freshly inserted family node (source lines 361-367). -/
def newFamAttrs (gc : String → String) (maxid : Nat) (last : String) : Instr :=
  languoid (Value.int maxid) "family"
    [("id", Value.str (gc last)), ("name", Value.str last), ("hname", Value.str last)]

/-- One iteration of the new-family emission loop (source lines 349-375). -/
def emitNewStep (fam : Families) (rgl : List (List String × List GLNode))
    (todo : List Migration) (gc : String → String) (st : EmitNewState)
    (hnode : Branch) : Except String EmitNewState :=
  if (alookup hnode st.b2pk).isSome then Except.ok st
  else
    match alookup hnode fam with
    | none => Except.error "KeyError families"
    | some leafsDict =>
      match emitNewChk rgl todo hnode (pysorted (akeys leafsDict)) with
      | Except.error e => Except.error e
      | Except.ok _ =>
        match hnode.getLast? with
        | none => Except.error "IndexError hnode -1"
        | some last =>
          if hnode.length > 1 then
            match alookup hnode.dropLast (pyInsert st.b2pk hnode (st.maxid + 1)) with
            | some fpk =>
              if fpk = 0 then Except.error "assert father pk truthy failed"
              else
                Except.ok (EmitNewState.mk (st.maxid + 1)
                  (pyInsert st.b2pk hnode (st.maxid + 1))
                  (pyInsert st.lnames (st.maxid + 1) last)
                  (st.out ++ [pyInsert (newFamAttrs gc (st.maxid + 1) last)
                    "father_pk" (Value.int fpk)]))
            | none => Except.error "KeyError branch to pk of parent"
          else
            Except.ok (EmitNewState.mk (st.maxid + 1)
              (pyInsert st.b2pk hnode (st.maxid + 1))
              (pyInsert st.lnames (st.maxid + 1) last)
              (st.out ++ [newFamAttrs gc (st.maxid + 1) last]))

/-- Embedding of the new-family emission loop as a fold of its step. -/
def emitNewFamilies (fam : Families) (rgl : List (List String × List GLNode))
    (todo : List Migration) (gc : String → String) (st0 : EmitNewState) :
    Except String EmitNewState :=
  foldE (emitNewStep fam rgl todo gc) st0 (sortedBranches fam)

/-- Embedding of the family-update emission loop (source lines 377-400). -/
def emitUpdRetire (b2pk : List (Branch × Nat)) (attrs : Instr) (out : List Instr)
    (m : Migration) : Except String (List Instr) :=
  match m.pointer with
  | some p =>
    if p.isEmpty then Except.ok (out ++ [pyInsert attrs "active" (Value.bool false)])
    else
      match alookup p b2pk with
      | some rep =>
        Except.ok (out ++ [pyInsert (pyInsert attrs "active" (Value.bool false))
          "replacement" (Value.int rep)])
      | none => Except.error "KeyError branch to pk of pointer"
  | none => Except.ok (out ++ [pyInsert attrs "active" (Value.bool false)])

/-- Base update attributes of a family migration (source line 380). -/
def updBase (nm : String) (m : Migration) : Instr :=
  languoid (Value.int m.pk) "family" [("name", Value.str nm)]

/-- Optional rename of a matched family (source lines 387-388). -/
def updRename (m : Migration) (last : String) (attrs2 : Instr) : Instr :=
  if m.rename then pyInsert attrs2 "name" (Value.str last) else attrs2

/-- One iteration of the family-update emission loop (source lines 379-400):
matched migrations (truthy `hid`) get parent, optional rename and
historical name; the rest are retired via `emitUpdRetire`, with a
replacement pointer when a truthy `pointer` is present. -/
def emitUpdStep (lnames : List (Nat × String)) (b2pk : List (Branch × Nat))
    (out : List Instr) (m : Migration) : Except String (List Instr) :=
  match alookup m.pk lnames with
  | none => Except.error "KeyError lnames"
  | some nm =>
    match m.hid with
    | some (h0 :: hrest) =>
      match alookup (h0 :: hrest).dropLast b2pk, (h0 :: hrest).getLast? with
      | _, none => Except.error "IndexError hid -1"
      | some fpk, some last =>
        Except.ok (out ++ [pyInsert (updRename m last
          (if (h0 :: hrest).length > 1 then
            pyInsert (updBase nm m) "father_pk" (Value.int fpk)
          else updBase nm m)) "hname" (Value.str last)])
      | none, some last =>
        if (h0 :: hrest).length > 1 then Except.error "KeyError branch to pk of hid parent"
        else Except.ok (out ++ [pyInsert (updRename m last (updBase nm m))
          "hname" (Value.str last)])
    | some [] => emitUpdRetire b2pk (updBase nm m) out m
    | none => emitUpdRetire b2pk (updBase nm m) out m

/-- Embedding of the family-update emission loop as a fold of its step. -/
def emitUpdates (todo : List Migration) (lnames : List (Nat × String))
    (b2pk : List (Branch × Nat)) : Except String (List Instr) :=
  foldE (emitUpdStep lnames b2pk) [] todo

/-- Reversal of an alias map (source lines 407-408):
`dict(zip(m.values(), m.keys()))`. -/
def reverseMap (m : List (String × String)) : List (String × String) :=
  m.foldl (fun acc kv => pyInsert acc kv.2 kv.1) []

/-- Embedding of the per-language update loop (source lines 410-423). -/
def langAttrs (codes ncodes : List (String × Nat)) (cl : String × LangEntry) : Instr :=
  languoid
    (match alookup cl.1 codes with
     | some pk => Value.int pk
     | none =>
       match alookup cl.1 ncodes with
       | some pk => Value.int pk
       | none => Value.null)
    "language" [("status", Value.str cl.2.status)]

/-- Comment and historical-name finishing touches of a language update
(source lines 417-422). -/
def emitLangFinish (riso rcol : List (String × String)) (cl : String × LangEntry)
    (attrs2 : Instr) : Instr :=
  match alookup cl.1 rcol with
  | some hn =>
    pyInsert
      (match alookup cl.1 riso with
       | some hn2 =>
         pyInsert (pyInsert attrs2 "globalclassificationcomment"
           (if cl.2.comment = "" then Value.null else Value.str cl.2.comment))
           "hname" (Value.str hn2)
       | none =>
         pyInsert attrs2 "globalclassificationcomment"
           (if cl.2.comment = "" then Value.null else Value.str cl.2.comment))
      "hname" (Value.str hn)
  | none =>
    match alookup cl.1 riso with
    | some hn2 =>
      pyInsert (pyInsert attrs2 "globalclassificationcomment"
        (if cl.2.comment = "" then Value.null else Value.str cl.2.comment))
        "hname" (Value.str hn2)
    | none =>
      pyInsert attrs2 "globalclassificationcomment"
        (if cl.2.comment = "" then Value.null else Value.str cl.2.comment)

/-- One iteration of the per-language update loop (source lines 411-423). -/
def emitLangStep (codes ncodes : List (String × Nat)) (b2pk : List (Branch × Nat))
    (riso rcol : List (String × String)) (out : List Instr)
    (cl : String × LangEntry) : Except String (List Instr) :=
  match cl.2.hnode with
  | some (h0 :: hrest) =>
    match alookup (h0 :: hrest) b2pk with
    | some fpk =>
      Except.ok (out ++ [emitLangFinish riso rcol cl
        (pyInsert (langAttrs codes ncodes cl) "father_pk" (Value.int fpk))])
    | none => Except.error "KeyError branch to pk of hnode"
  | some [] =>
    Except.ok (out ++ [emitLangFinish riso rcol cl (langAttrs codes ncodes cl)])
  | none =>
    Except.ok (out ++ [emitLangFinish riso rcol cl (langAttrs codes ncodes cl)])

/-- Embedding of the per-language update loop as a fold of its step. -/
def emitLanguageUpdates (langs : Languages) (codes ncodes : List (String × Nat))
    (b2pk : List (Branch × Nat)) (riso rcol : List (String × String)) :
    Except String (List Instr) :=
  foldE (emitLangStep codes ncodes b2pk riso rcol) [] langs

/-- Embedding of the final legacy-code sweep (source lines 425-432):
NOCODE languoids no longer in use are retired and unparented. -/
def nocodeStep (langs : Languages) (out : List Instr) (r : Nat × String) : List Instr :=
  if (alookup r.2 langs).isSome then out
  else out ++ [languoid (Value.int r.1) "language"
    [("status", Value.str "retired"), ("active", Value.bool false),
     ("father_pk", Value.null)]]

/-- Embedding of the final legacy-code sweep as a fold of its step. -/
def emitNocode (rows : List (Nat × String)) (langs : Languages) : List Instr :=
  rows.foldl (nocodeStep langs) []

/-- Inputs of `main` that the script reads from the database, from
`coordinates.tab`, or from the two classification files (already parsed
into family blocks); `gc` stands for the external `glottocode`
id-generator and `leafHids` for the per-node tree-closure query. -/
structure MainInput where
  coords : List (String × Value × Value)
  codes : List (String × Nat)
  maxid : Nat
  lnames : List (Nat × String)
  lffBlocks : List FamBlock
  lofBlocks : List FamBlock
  glrows : List GLNode
  leafHids : Nat → List String
  nocodeRows : List (Nat × String)
  gc : String → String

/-- Embedding of the instruction-emitting part of `main` (source lines
203-435), producing the list serialized to `languoids.json`. -/
def mainEmit (inp : MainInput) : Except String (List Instr) :=
  match collapsePass (parseFamilies inp.lffBlocks ([], [])).1
      (parseFamilies inp.lffBlocks ([], [])).2 with
  | Except.error e => Except.error e
  | Except.ok cs =>
    match buildNames cs.families with
    | Except.error e => Except.error e
    | Except.ok names =>
      match parseFamilies inp.lofBlocks (cs.families, cs.languages) with
      | (fam3, langs3) =>
        match buildRnodes inp.codes fam3 with
        | Except.error e => Except.error e
        | Except.ok ru =>
          match matchAll (buildRglnodes (loadGlnodes inp.glrows inp.leafHids names).glnodes)
              ru.1 ru.2 (mkLeafsets ru.1) names
              (loadGlnodes inp.glrows inp.leafHids names).todo with
          | Except.error e => Except.error e
          | Except.ok todo =>
            match buildBranchToPk todo with
            | Except.error e => Except.error e
            | Except.ok b2pk0 =>
              match emitNewFamilies fam3
                  (buildRglnodes (loadGlnodes inp.glrows inp.leafHids names).glnodes)
                  todo inp.gc
                  (EmitNewState.mk
                    (newLanguages inp.codes inp.coords inp.gc langs3 inp.maxid).maxid
                    b2pk0 inp.lnames []) with
              | Except.error e => Except.error e
              | Except.ok ens =>
                match emitUpdates todo ens.lnames ens.b2pk with
                | Except.error e => Except.error e
                | Except.ok updates =>
                  match emitLanguageUpdates langs3 inp.codes
                      (newLanguages inp.codes inp.coords inp.gc langs3 inp.maxid).ncodes
                      ens.b2pk (reverseMap cs.isolateNames)
                      (reverseMap cs.collapsedNames) with
                  | Except.error e => Except.error e
                  | Except.ok langInstrs =>
                    Except.ok
                      ((newLanguages inp.codes inp.coords inp.gc langs3 inp.maxid).out ++
                        ens.out ++ updates ++ langInstrs ++
                        emitNocode inp.nocodeRows langs3)

/-- Values stored in a `branch_to_pk` mapping. -/
def b2pkVals (b2pk : List (Branch × Nat)) : List Nat := b2pk.map (fun kv => kv.2)

/-- Pks of the migrations with a truthy `hid`, i.e. of the old nodes
matched exactly to a branch of the new classification. -/
def matchedPks (todo : List Migration) : List Nat :=
  (todo.filter (fun m => truthyBranch m.hid)).map (fun m => m.pk)

/-- Core keys that `languoid` always writes. -/
def hasCoreKeys (d : Instr) : Bool :=
  (alookup "pk" d).isSome && (alookup "level" d).isSome && (alookup "active" d).isSome &&
  (alookup "father_pk" d).isSome && (alookup "status" d).isSome

/-! ## Decidable checkers for claim-level properties -/

/-- Check of the breadth-first-reference property over an output list:
every instruction carrying an integer `father_pk` must be preceded by an
instruction whose `pk` is that integer. -/
def fatherRefsEarlierAux : List Instr → List Instr → Bool
  | _, [] => true
  | earlier, d :: rest =>
    (match alookup "father_pk" d with
     | some (Value.int p) =>
       earlier.any (fun e => decide (alookup "pk" e = some (Value.int p)))
     | _ => true) &&
    fatherRefsEarlierAux (earlier ++ [d]) rest

/-- Top-level entry of the earlier-parent check. -/
def fatherRefsEarlier (out : List Instr) : Bool := fatherRefsEarlierAux [] out

/-- Weaker reference property: every instruction carrying an integer
`father_pk` refers to the `pk` of some instruction of the list, anywhere
in it. -/
def fatherRefsSomewhere (out : List Instr) : Bool :=
  out.all
    (fun d =>
      match alookup "father_pk" d with
      | some (Value.int p) =>
        out.any (fun e => decide (alookup "pk" e = some (Value.int p)))
      | _ => true)

/-- Check of the (code, name)-pair ancestor-inclusion property of claim
C7 over an accumulated family map: every entry of a branch's leaf-map
must literally appear in the leaf-map of each of its non-empty
prefixes. -/
def ancestorEntriesContained (fam : Families) : Bool :=
  fam.all
    (fun bl =>
      (prefixesOf bl.1).all
        (fun p =>
          match alookup p fam with
          | some m => bl.2.all (fun cn => decide (cn ∈ m))
          | none => false))

/-- Earlier-parent check relative to a set of pks that are allowed to be
referenced without having been emitted yet: every instruction carrying an
integer `father_pk` must reference an allowed pk or the `pk` of a
preceding instruction. -/
def fatherRefsEarlierOr (allowed : List Nat) : List Instr → List Instr → Bool
  | _, [] => true
  | earlier, d :: rest =>
    (match alookup "father_pk" d with
     | some (Value.int p) =>
       allowed.contains p ||
         earlier.any (fun e => decide (alookup "pk" e = some (Value.int p)))
     | _ => true) &&
    fatherRefsEarlierOr allowed (earlier ++ [d]) rest

/-- Concrete `main` input: a database with one old family `F` (pk 10) with
three coded leaves, and a new classification adding the subfamily
`F, G` over two of them. -/
def mainX : MainInput :=
  MainInput.mk []
    [("aaa", 1), ("bbb", 2), ("ccc", 3)] 10 [(10, "F")]
    [FamBlock.mk ["F", "G"] "established" "" [("aaa", "A one"), ("bbb", "B two")],
     FamBlock.mk ["F"] "established" "" [("ccc", "C three")]]
    []
    [GLNode.mk 10 (some "family") "F" none]
    (fun pk => if pk = 10 then ["aaa", "bbb", "ccc"] else [])
    []
    (fun s => s)

/-- Output of `mainEmit` on `mainX`: the new subfamily (pk 11, father 10)
is emitted before the update instruction of its father (pk 10). -/
def mainXOut : List Instr :=
  [[("pk", Value.int 11), ("level", Value.str "family"), ("active", Value.bool true),
    ("father_pk", Value.int 10), ("status", Value.str "established"),
    ("id", Value.str "G"), ("name", Value.str "G"), ("hname", Value.str "G")],
   [("pk", Value.int 10), ("level", Value.str "family"), ("active", Value.bool true),
    ("father_pk", Value.null), ("status", Value.str "established"),
    ("name", Value.str "F"), ("hname", Value.str "F")],
   [("pk", Value.int 1), ("level", Value.str "language"), ("active", Value.bool true),
    ("father_pk", Value.int 11), ("status", Value.str "established"),
    ("globalclassificationcomment", Value.null)],
   [("pk", Value.int 2), ("level", Value.str "language"), ("active", Value.bool true),
    ("father_pk", Value.int 11), ("status", Value.str "established"),
    ("globalclassificationcomment", Value.null)],
   [("pk", Value.int 3), ("level", Value.str "language"), ("active", Value.bool true),
    ("father_pk", Value.int 10), ("status", Value.str "established"),
    ("globalclassificationcomment", Value.null)]]

/-- Input file of the C7 counterexample: the code `aaa` occurs under two
sibling branches with two different names, so the shared ancestor keeps
only the second name. -/
def c7Input : String :=
  "F, B\n  NameOne [aaa]\nF, C\n  NameTwo [aaa]"

/-- Sorted 20-element leaf-set of two old nodes in the approximate-match
scenario. -/
def c2OldLeafs : List String :=
  ["a10", "a11", "a12", "a13", "a14", "a15", "a16", "a17", "a18", "a19",
   "a20", "a21", "a22", "a23", "a24", "a25", "a26", "a27", "a28", "a29"]

/-- Sorted 20-element leaf-set of the new branch in the approximate-match
scenario: one element of the old leaf-set replaced. -/
def c2NewLeafs : List String :=
  ["a10", "a11", "a12", "a13", "a14", "a15", "a16", "a17", "a18", "a19",
   "a20", "a21", "a22", "a23", "a24", "a25", "a26", "a27", "a28", "b99"]

/-- New-classification map of the approximate-match scenario. -/
def c2Rnodes : RNodes := [(c2NewLeafs, ["Fam"])]

/-! ## Basic lemmas about the Python-dict model -/

theorem mem_pyInsert {α β : Type} [DecidableEq α] (m : List (α × β)) (k : α) (v : β)
    (x : α × β) (hx : x ∈ pyInsert m k v) : x ∈ m ∨ x = (k, v) := by
  induction m with
  | nil =>
    simp only [pyInsert, List.mem_singleton] at hx
    exact Or.inr hx
  | cons hd t ih =>
    obtain ⟨k2, v2⟩ := hd
    simp only [pyInsert] at hx
    by_cases hk : k2 = k
    · simp only [if_pos hk, List.mem_cons] at hx
      rcases hx with h1 | h2
      · exact Or.inr h1
      · exact Or.inl (List.mem_cons_of_mem _ h2)
    · simp only [if_neg hk, List.mem_cons] at hx
      rcases hx with h1 | h2
      · exact Or.inl (List.mem_cons.mpr (Or.inl h1))
      · rcases ih h2 with h3 | h4
        · exact Or.inl (List.mem_cons_of_mem _ h3)
        · exact Or.inr h4

/-! ## Claim C6: the bare Unattested header becomes the Unclassified branch -/

/-- C6: for every branch header line whose component list is exactly the
single marker `Unattested`, `normalized_branch` returns the branch
`["Unclassified"]` with status `unattested` (and no comment), so the
leaves under the header are attached to a root branch named
"Unclassified". -/
theorem normalizedBranch_unattested (unescape : String → String) (line : String)
    (h : branchComponents unescape line = ["Unattested"]) :
    normalizedBranch unescape line = (["Unclassified"], "unattested", "") := by
  unfold normalizedBranch
  rw [h]
  decide

/-- Witness for C6 at the concrete header line `Unattested`. -/
theorem normalizedBranch_unattested_witness :
    branchComponents id "Unattested" = ["Unattested"] ∧
    normalizedBranch id "Unattested" = (["Unclassified"], "unattested", "") :=
  ⟨by decide, normalizedBranch_unattested id "Unattested" (by decide)⟩

/-! ## Claim C5: every code emitted by the parser is valid -/

theorem sfLoop_codes_valid (unescape : String → String) :
    ∀ (lines : List String) (cur : Option FamBlock) (acc blocks : List FamBlock),
      (∀ b ∈ acc, ∀ cn ∈ b.leafs, validCode cn.1 = true) →
      (∀ fam, cur = some fam → ∀ cn ∈ fam.leafs, validCode cn.1 = true) →
      sfLoop unescape lines cur acc = Except.ok blocks →
      ∀ b ∈ blocks, ∀ cn ∈ b.leafs, validCode cn.1 = true := by
  intro lines
  induction lines with
  | nil =>
    intro cur acc blocks hacc hcur hrun
    cases cur with
    | some fam =>
      simp only [sfLoop] at hrun
      cases hrun
      intro b hb
      rcases List.mem_append.mp hb with h1 | h2
      · exact hacc b h1
      · rw [List.mem_singleton.mp h2]
        exact hcur fam rfl
    | none =>
      simp only [sfLoop] at hrun
      exact Except.noConfusion hrun
  | cons line rest ih =>
    intro cur acc blocks hacc hcur hrun
    simp only [sfLoop] at hrun
    by_cases hblank : pyStrip line = ""
    · rw [if_pos hblank] at hrun
      exact ih cur acc blocks hacc hcur hrun
    · rw [if_neg hblank] at hrun
      by_cases hleaf : pyStartsWith line "  " = true
      · rw [if_pos hleaf] at hrun
        cases cur with
        | none => exact absurd hrun (by simp)
        | some fam =>
          simp only at hrun
          rcases hsplit : pySplit '[' (pyStrip line) with _ | ⟨name0, rest2⟩
          · rw [hsplit] at hrun; exact absurd hrun (by simp)
          · rcases rest2 with _ | ⟨rawCode, rest3⟩
            · rw [hsplit] at hrun; exact absurd hrun (by simp)
            · rcases rest3 with _ | ⟨x, xs⟩
              · rw [hsplit] at hrun
                simp only at hrun
                by_cases hempty : extractCode rawCode = ""
                · rw [if_pos hempty] at hrun; exact absurd hrun (by simp)
                · rw [if_neg hempty] at hrun
                  by_cases hvalid : validCode (extractCode rawCode) = true
                  · rw [if_pos hvalid] at hrun
                    refine ih _ acc blocks hacc ?_ hrun
                    intro fam2 hfam2 cn hcn
                    cases hfam2
                    simp only at hcn
                    rcases mem_pyInsert _ _ _ _ hcn with h1 | h2
                    · exact hcur fam rfl cn h1
                    · rw [h2]; exact hvalid
                  · rw [if_neg hvalid] at hrun; exact absurd hrun (by simp)
              · rw [hsplit] at hrun; exact absurd hrun (by simp)
      · rw [if_neg hleaf] at hrun
        cases cur with
        | some fam =>
          simp only at hrun
          refine ih _ (acc ++ [fam]) blocks ?_ ?_ hrun
          · intro b hb
            rcases List.mem_append.mp hb with h1 | h2
            · exact hacc b h1
            · rw [List.mem_singleton.mp h2]; exact hcur fam rfl
          · intro fam2 hfam2 cn hcn
            cases hfam2
            simp at hcn
        | none =>
          simp only at hrun
          refine ih _ acc blocks hacc ?_ hrun
          intro fam2 hfam2 cn hcn
          cases hfam2
          simp at hcn

/-- C5: whenever `split_families` parses an input without raising, every
leaf code it extracted (after stripping backslashes and quotes and
normalizing `NOCODE-` to `NOCODE_`) is non-empty and either exactly 3
characters long or matches `NOCODE_[A-Za-z_-]+`; an input with a
violating code makes the parse raise instead of producing blocks. -/
theorem splitFamilies_codes_valid (unescape : String → String) (input : String)
    (blocks : List FamBlock) (h : splitFamilies unescape input = Except.ok blocks) :
    ∀ b ∈ blocks, ∀ cn ∈ b.leafs, validCode cn.1 = true := by
  refine sfLoop_codes_valid unescape (pySplit (Char.ofNat 10) input) none [] blocks ?_ ?_ h
  · intro b hb; simp at hb
  · intro fam hfam; simp at hfam

/-- Witness for C5 on a concrete two-leaf input file. -/
theorem splitFamilies_codes_valid_witness :
    splitFamilies id "Fam One\n  L one [abc]\n  L two [NOCODE_Foo-x]" =
      Except.ok [FamBlock.mk ["Fam One"] "established" ""
        [("abc", "L one"), ("NOCODE_Foo-x", "L two")]] ∧
    ∀ b ∈ [FamBlock.mk ["Fam One"] "established" ""
        [("abc", "L one"), ("NOCODE_Foo-x", "L two")]],
      ∀ cn ∈ b.leafs, validCode cn.1 = true :=
  ⟨by decide,
   splitFamilies_codes_valid id "Fam One\n  L one [abc]\n  L two [NOCODE_Foo-x]" _ (by decide)⟩

/-! ## Claim C4: the duplicate-leafset case of the matcher -/

/-- Claim C4: when an old leaf-set has an exact match and is duplicated in
the new classification, more than 2 sharing old nodes is a fatal
assertion; with exactly 2, the node whose father is the other node's pk
is paired with the unclassified branch and the other with the plain
branch, and it is fatal when neither ordering satisfies the parent
relation. -/
theorem matchNodes_duplicate_leafset
    (leafs : List String) (nodes : List GLNode) (rnodes urnodes : RNodes)
    (leafsets : List (List String)) (names : NamesMap) (rn urn : Branch)
    (hr : alookup leafs rnodes = some rn) (hu : alookup leafs urnodes = some urn) :
    (2 < nodes.length →
       matchNodes leafs nodes rnodes urnodes leafsets names =
         Except.error "assert len nodes le 2 failed") ∧
    (∀ a b, nodes = [a, b] →
       matchNodes leafs nodes rnodes urnodes leafsets names =
         (if a.father = some b.pk then
            Except.ok [Migration.mk b.pk (some rn) false none,
                       Migration.mk a.pk (some urn) false none]
          else if b.father = some a.pk then
            Except.ok [Migration.mk a.pk (some rn) false none,
                       Migration.mk b.pk (some urn) false none]
          else Except.error "assert unode father eq node pk failed")) := by
  constructor
  · intro h3
    simp only [matchNodes, hr, hu]
    rw [if_neg (by omega)]
  · intro a b hab
    subst hab
    simp only [matchNodes, hr, hu]
    rfl

/-- Witness for C4: two old nodes share the duplicated leaf-set, the
unclassified-subtree node (pk 7) has the other node (pk 5) as father, so
pk 5 goes to the plain branch and pk 7 to the unclassified one. -/
theorem matchNodes_duplicate_leafset_witness :
    alookup ["abc"] [(["abc"], ["Plain"])] = some ["Plain"] ∧
    matchNodes ["abc"]
        [GLNode.mk 7 (some "family") "Unclassified Plain" (some 5),
         GLNode.mk 5 (some "family") "Plain" none]
        [(["abc"], ["Plain"])] [(["abc"], ["Plain", "Unclassified Plain"])] [] [] =
      Except.ok [Migration.mk 5 (some ["Plain"]) false none,
                 Migration.mk 7 (some ["Plain", "Unclassified Plain"]) false none] := by
  refine ⟨by decide, ?_⟩
  have h := (matchNodes_duplicate_leafset ["abc"]
    [GLNode.mk 7 (some "family") "Unclassified Plain" (some 5),
     GLNode.mk 5 (some "family") "Plain" none]
    [(["abc"], ["Plain"])] [(["abc"], ["Plain", "Unclassified Plain"])] [] []
    ["Plain"] ["Plain", "Unclassified Plain"] (by decide) (by decide)).2
    (GLNode.mk 7 (some "family") "Unclassified Plain" (some 5))
    (GLNode.mk 5 (some "family") "Plain" none) rfl
  rw [h]
  decide

/-! ## Claim C2: approximate matching of large leaf-sets -/

theorem find_first {α : Type} (p : α → Bool) :
    ∀ (pre : List α) (nl : α) (post : List α),
      (∀ x ∈ pre, p x = false) → p nl = true →
      (pre ++ nl :: post).find? p = some nl := by
  intro pre
  induction pre with
  | nil =>
    intro nl post _ hnl
    simp only [List.nil_append]
    exact List.find?_cons_of_pos _ hnl
  | cons x xs ih =>
    intro nl post hpre hnl
    have hx : p x = false := hpre x (List.mem_cons_self x xs)
    simp only [List.cons_append]
    rw [List.find?_cons_of_neg _ (by simp [hx])]
    exact ih nl post (fun y hy => hpre y (List.mem_cons_of_mem x hy)) hnl

/-- Claim C2: with no exact match and more than 10 leaves, the ordered
`leafsets` list (ascending size, built from `rnodes`) is scanned and the
first set accepted by the tolerance test (size within
`divmod(len(nleafset), 10)[0]` and one of the two set differences within
the same tolerance) becomes the pointer target of every old node sharing
the leaf-set, with no rename. -/
theorem matchNodes_approx_match
    (leafs : List String) (nodes : List GLNode) (rnodes urnodes : RNodes)
    (names : NamesMap) (pre post : List (List String)) (nl : List String) (cp : Branch)
    (hnoexact : alookup leafs rnodes = none)
    (hbig : leafs.length > 10)
    (hsets : mkLeafsets rnodes = pre ++ nl :: post)
    (hpre : ∀ x ∈ pre, approxAccept leafs x = false)
    (hacc : approxAccept leafs nl = true)
    (hcp : alookup (pysorted nl) rnodes = some cp) :
    matchNodes leafs nodes rnodes urnodes (mkLeafsets rnodes) names =
      Except.ok (nodes.map (fun n => Migration.mk n.pk none false (some cp))) := by
  have hfind : findApprox leafs (mkLeafsets rnodes) = some nl := by
    unfold findApprox
    rw [hsets]
    exact find_first _ pre nl post hpre hacc
  simp only [matchNodes, hnoexact]
  rw [if_pos hbig]
  simp only [hfind, hcp]

/-- Witness for C2: two old nodes share a 20-element leaf-set differing
from the new branch's 20-element leaf-set by one element (tolerance
`20 / 10 = 2`), and both are pointed at that branch. -/
theorem matchNodes_approx_match_witness :
    alookup c2OldLeafs c2Rnodes = none ∧
    approxAccept c2OldLeafs c2NewLeafs = true ∧
    matchNodes c2OldLeafs
        [GLNode.mk 100 (some "family") "X" none, GLNode.mk 101 (some "family") "Y" none]
        c2Rnodes [] (mkLeafsets c2Rnodes) [] =
      Except.ok [Migration.mk 100 none false (some ["Fam"]),
                 Migration.mk 101 none false (some ["Fam"])] := by
  refine ⟨by decide, by decide, ?_⟩
  have h := matchNodes_approx_match c2OldLeafs
    [GLNode.mk 100 (some "family") "X" none, GLNode.mk 101 (some "family") "Y" none]
    c2Rnodes [] [] [] [] c2NewLeafs ["Fam"]
    (by decide) (by decide) (by decide) (by intro x hx; simp at hx) (by decide) (by decide)
  rw [h]
  rfl

/-! ## Claim C9: the matcher emits exactly one migration per old node -/

theorem exactMatchTodo_ok (rn : Branch) (nodes : List GLNode) (todo : List Migration)
    (h : exactMatchTodo rn nodes = Except.ok todo) :
    todo.map Migration.pk = nodes.map GLNode.pk ∧
    ∀ m ∈ todo, m.hid = none ∨ m.pointer = none := by
  cases nodes with
  | nil => exact Except.noConfusion h
  | cons n0 rest =>
    simp only [exactMatchTodo] at h
    cases h
    constructor
    · simp [List.map_map]
    · intro m hm
      rcases List.mem_cons.mp hm with h1 | h2
      · subst h1; exact Or.inr rfl
      · obtain ⟨n, hn, rfl⟩ := List.mem_map.mp h2
        exact Or.inl rfl

theorem fallbackByLeafset_ok (leafset : List String) (rnodes : RNodes)
    (leafsets : List (List String)) (node : GLNode) (m : Migration)
    (h : fallbackByLeafset leafset rnodes leafsets node = Except.ok m) :
    m.pk = node.pk ∧ m.hid = none := by
  unfold fallbackByLeafset at h
  split at h
  · cases h; exact ⟨rfl, rfl⟩
  · split at h
    · cases h; exact ⟨rfl, rfl⟩
    · exact Except.noConfusion h

theorem fallbackOne_ok (leafset : List String) (rnodes : RNodes)
    (leafsets : List (List String)) (names : NamesMap) (node : GLNode) (m : Migration)
    (h : fallbackOne leafset rnodes leafsets names node = Except.ok m) :
    m.pk = node.pk ∧ m.hid = none := by
  unfold fallbackOne at h
  split at h
  · cases h; exact ⟨rfl, rfl⟩
  · exact fallbackByLeafset_ok _ _ _ _ _ h
  · exact fallbackByLeafset_ok _ _ _ _ _ h
  · exact fallbackByLeafset_ok _ _ _ _ _ h

theorem exceptMapM_fallback_ok (leafset : List String) (rnodes : RNodes)
    (leafsets : List (List String)) (names : NamesMap) :
    ∀ (nodes : List GLNode) (todo : List Migration),
      exceptMapM (fallbackOne leafset rnodes leafsets names) nodes = Except.ok todo →
      todo.map Migration.pk = nodes.map GLNode.pk ∧ ∀ m ∈ todo, m.hid = none := by
  intro nodes
  induction nodes with
  | nil =>
    intro todo h
    simp only [exceptMapM] at h
    cases h
    exact ⟨rfl, by intro m hm; simp at hm⟩
  | cons n ns ih =>
    intro todo h
    simp only [exceptMapM] at h
    split at h
    · rename_i y hy
      split at h
      · rename_i ys hys
        cases h
        obtain ⟨h1, h2⟩ := fallbackOne_ok _ _ _ _ _ _ hy
        obtain ⟨h3, h4⟩ := ih ys hys
        refine ⟨by simp [h1, h3], ?_⟩
        intro m hm
        rcases List.mem_cons.mp hm with h5 | h6
        · subst h5; exact h2
        · exact h4 m h6
      · exact Except.noConfusion h
    · exact Except.noConfusion h

/-- Claim C9: whenever `match_nodes` returns for a non-empty group of old
nodes sharing a leaf-set, it returns exactly one migration per old node
(the multiset of pks is preserved), and each migration is a branch match,
a retirement with pointer, or a bare retirement, never a match and a
pointer at once. -/
theorem matchNodes_one_per_node
    (leafs : List String) (nodes : List GLNode) (rnodes urnodes : RNodes)
    (leafsets : List (List String)) (names : NamesMap) (todo : List Migration)
    (_hne : nodes ≠ [])
    (h : matchNodes leafs nodes rnodes urnodes leafsets names = Except.ok todo) :
    (todo.map Migration.pk).Perm (nodes.map GLNode.pk) ∧
    ∀ m ∈ todo, m.hid = none ∨ m.pointer = none := by
  unfold matchNodes at h
  split at h
  · -- exact match exists
    split at h
    · -- duplicated in urnodes
      split at h
      · -- length at most 2
        split at h
        · -- nodes = [a, b]
          rename_i a b
          split at h
          · cases h
            constructor
            · exact List.Perm.swap _ _ _
            · intro m hm
              rcases List.mem_cons.mp hm with h1 | h2
              · subst h1; exact Or.inr rfl
              · rcases List.mem_cons.mp h2 with h3 | h4
                · subst h3; exact Or.inr rfl
                · simp at h4
          · split at h
            · cases h
              constructor
              · exact List.Perm.refl _
              · intro m hm
                rcases List.mem_cons.mp hm with h1 | h2
                · subst h1; exact Or.inr rfl
                · rcases List.mem_cons.mp h2 with h3 | h4
                  · subst h3; exact Or.inr rfl
                  · simp at h4
            · exact Except.noConfusion h
        · obtain ⟨h1, h2⟩ := exactMatchTodo_ok _ _ _ h
          exact ⟨h1 ▸ List.Perm.refl _, h2⟩
      · exact Except.noConfusion h
    · obtain ⟨h1, h2⟩ := exactMatchTodo_ok _ _ _ h
      exact ⟨h1 ▸ List.Perm.refl _, h2⟩
  · -- no exact match
    split at h
    · -- big leaf-set
      split at h
      · -- approximate counterpart found
        split at h
        · cases h
          constructor
          · rw [List.map_map]; exact List.Perm.refl _
          · intro m hm
            obtain ⟨n, hn, rfl⟩ := List.mem_map.mp hm
            exact Or.inl rfl
        · exact Except.noConfusion h
      · obtain ⟨h1, h2⟩ := exceptMapM_fallback_ok _ _ _ _ _ _ h
        exact ⟨h1 ▸ List.Perm.refl _, fun m hm => Or.inl (h2 m hm)⟩
    · obtain ⟨h1, h2⟩ := exceptMapM_fallback_ok _ _ _ _ _ _ h
      exact ⟨h1 ▸ List.Perm.refl _, fun m hm => Or.inl (h2 m hm)⟩

/-- Witness for C9: a single old node with no counterpart anywhere ends up
with exactly one bare retirement. -/
theorem matchNodes_one_per_node_witness :
    ([Migration.mk 1 none false none].map Migration.pk).Perm
      ([GLNode.mk 1 none "A" none].map GLNode.pk) ∧
    ∀ m ∈ [Migration.mk 1 none false none], m.hid = none ∨ m.pointer = none :=
  matchNodes_one_per_node ["xyz"] [GLNode.mk 1 none "A" none] [] [] [] []
    [Migration.mk 1 none false none] (by decide) (by decide)

/-! ## Claim C3: fallback priority order of the matcher -/

theorem fallbackOne_eq_leafset (leafs : List String) (rnodes : RNodes)
    (leafsets : List (List String)) (names : NamesMap) (node : GLNode)
    (hnu : ∀ bs, alookup node.name names = some bs → bs.length ≠ 1) :
    fallbackOne leafs rnodes leafsets names node =
      fallbackByLeafset leafs rnodes leafsets node := by
  unfold fallbackOne
  split
  · rename_i b0 hn
    exact absurd rfl (hnu [b0] hn)
  · rfl
  · rfl
  · rfl

theorem fallbackByLeafset_superset (leafs : List String) (rnodes : RNodes)
    (leafsets : List (List String)) (node : GLNode) (nl : List String) (cp : Branch)
    (hfind : leafsets.find? (fun x => isSubsetL leafs x) = some nl) (hne : nl ≠ [])
    (hcp : alookup (pysorted nl) rnodes = some cp) :
    fallbackByLeafset leafs rnodes leafsets node =
      Except.ok (Migration.mk node.pk none false (some cp)) := by
  obtain ⟨y, ys, rfl⟩ := List.exists_cons_of_ne_nil hne
  have hcand : fallbackCandidate leafs leafsets = y :: ys := by
    unfold fallbackCandidate
    rw [hfind]
    rfl
  unfold fallbackByLeafset
  rw [hcand]
  simp only [List.isEmpty_cons, Bool.false_eq_true, if_false, hcp]

theorem fallbackByLeafset_intersection (leafs : List String) (rnodes : RNodes)
    (leafsets : List (List String)) (node : GLNode) (cp : Branch)
    (hfind : ((leafsets.find? (fun x => isSubsetL leafs x)).getD []).isEmpty = true)
    (hne : maxIntersection leafs leafsets ≠ [])
    (hcp : alookup (pysorted (maxIntersection leafs leafsets)) rnodes = some cp) :
    fallbackByLeafset leafs rnodes leafsets node =
      Except.ok (Migration.mk node.pk none false (some cp)) := by
  have hcand : fallbackCandidate leafs leafsets = maxIntersection leafs leafsets := by
    unfold fallbackCandidate
    rw [if_pos hfind]
  unfold fallbackByLeafset
  rw [hcand]
  obtain ⟨y, ys, hyy⟩ := List.exists_cons_of_ne_nil hne
  rw [hyy]
  rw [hyy] at hcp
  simp only [List.isEmpty_cons, Bool.false_eq_true, if_false, hcp]

theorem fallbackByLeafset_bare (leafs : List String) (rnodes : RNodes)
    (leafsets : List (List String)) (node : GLNode)
    (hfind : ((leafsets.find? (fun x => isSubsetL leafs x)).getD []).isEmpty = true)
    (hmax : maxIntersection leafs leafsets = []) :
    fallbackByLeafset leafs rnodes leafsets node =
      Except.ok (Migration.mk node.pk none false none) := by
  have hcand : fallbackCandidate leafs leafsets = [] := by
    unfold fallbackCandidate
    rw [if_pos hfind, hmax]
  unfold fallbackByLeafset
  rw [hcand]
  rfl

/-- Claim C3: with neither an exact nor an approximate leaf-set match, the
matcher processes each old node individually, in priority order: a name
uniquely identifying one new family yields a pointer match (not an
unresolved retirement); otherwise the first, hence smallest, new leaf-set
containing the old leaf-set is used; failing that, the new leaf-set with
the largest intersection; and only when no candidate exists at all the
node becomes a bare retirement, returned normally rather than raising. -/
theorem matchNodes_fallback_order
    (leafs : List String) (nodes : List GLNode) (rnodes urnodes : RNodes)
    (leafsets : List (List String)) (names : NamesMap)
    (hnoexact : alookup leafs rnodes = none)
    (hnoapprox : leafs.length > 10 → findApprox leafs leafsets = none) :
    matchNodes leafs nodes rnodes urnodes leafsets names =
      exceptMapM (fallbackOne leafs rnodes leafsets names) nodes ∧
    (∀ node b0, alookup node.name names = some [b0] →
      fallbackOne leafs rnodes leafsets names node =
        Except.ok (Migration.mk node.pk none false (some b0))) ∧
    (∀ node nl cp,
      (∀ bs, alookup node.name names = some bs → bs.length ≠ 1) →
      leafsets.find? (fun x => isSubsetL leafs x) = some nl → nl ≠ [] →
      alookup (pysorted nl) rnodes = some cp →
      fallbackOne leafs rnodes leafsets names node =
        Except.ok (Migration.mk node.pk none false (some cp))) ∧
    (∀ node cp,
      (∀ bs, alookup node.name names = some bs → bs.length ≠ 1) →
      ((leafsets.find? (fun x => isSubsetL leafs x)).getD []).isEmpty = true →
      maxIntersection leafs leafsets ≠ [] →
      alookup (pysorted (maxIntersection leafs leafsets)) rnodes = some cp →
      fallbackOne leafs rnodes leafsets names node =
        Except.ok (Migration.mk node.pk none false (some cp))) ∧
    (∀ node,
      (∀ bs, alookup node.name names = some bs → bs.length ≠ 1) →
      ((leafsets.find? (fun x => isSubsetL leafs x)).getD []).isEmpty = true →
      maxIntersection leafs leafsets = [] →
      fallbackOne leafs rnodes leafsets names node =
        Except.ok (Migration.mk node.pk none false none)) := by
  refine ⟨?_, ?_, ?_, ?_, ?_⟩
  · simp only [matchNodes, hnoexact]
    split
    · rename_i hbig
      simp only [hnoapprox hbig]
    · rfl
  · intro node b0 hn
    simp only [fallbackOne, hn]
  · intro node nl cp hnu hfind hne hcp
    rw [fallbackOne_eq_leafset _ _ _ _ _ hnu]
    exact fallbackByLeafset_superset _ _ _ _ _ _ hfind hne hcp
  · intro node cp hnu hfind hne hcp
    rw [fallbackOne_eq_leafset _ _ _ _ _ hnu]
    exact fallbackByLeafset_intersection _ _ _ _ _ hfind hne hcp
  · intro node hnu hfind hmax
    rw [fallbackOne_eq_leafset _ _ _ _ _ hnu]
    exact fallbackByLeafset_bare _ _ _ _ hfind hmax

/-- Witness for C3: an old node named `OldFam` whose leaf-set matches
nothing, while `OldFam` uniquely identifies one new family, yields a
name-based pointer match. -/
theorem matchNodes_fallback_order_witness :
    matchNodes ["l1"] [GLNode.mk 42 (some "family") "OldFam" none] [] [] []
        [("OldFam", [["NewFam"]])] =
      Except.ok [Migration.mk 42 none false (some ["NewFam"])] ∧
    fallbackOne ["l1"] [] [] [("OldFam", [["NewFam"]])]
        (GLNode.mk 42 (some "family") "OldFam" none) =
      Except.ok (Migration.mk 42 none false (some ["NewFam"])) := by
  have H := matchNodes_fallback_order ["l1"] [GLNode.mk 42 (some "family") "OldFam" none]
    [] [] [] [("OldFam", [["NewFam"]])] (by decide) (fun hb => absurd hb (by decide))
  refine ⟨H.1.trans (by decide),
    H.2.1 (GLNode.mk 42 (some "family") "OldFam" none) ["NewFam"] (by decide)⟩

/-! ## Claim C7: ancestor inclusion of leaf maps -/

theorem alookup_pyInsert_self {α β : Type} [DecidableEq α] (m : List (α × β))
    (k : α) (v : β) : alookup k (pyInsert m k v) = some v := by
  induction m with
  | nil => simp [pyInsert, alookup]
  | cons hd t ih =>
    obtain ⟨k2, v2⟩ := hd
    simp only [pyInsert]
    by_cases hk : k2 = k
    · rw [if_pos hk]; simp [alookup]
    · rw [if_neg hk]; simp only [alookup, if_neg hk]; exact ih

theorem alookup_pyInsert_ne {α β : Type} [DecidableEq α] (m : List (α × β))
    (k q : α) (v : β) (hq : q ≠ k) : alookup q (pyInsert m k v) = alookup q m := by
  induction m with
  | nil =>
    simp only [pyInsert, alookup]
    rw [if_neg (fun h : k = q => hq h.symm)]
  | cons hd t ih =>
    obtain ⟨k2, v2⟩ := hd
    simp only [pyInsert]
    by_cases hk : k2 = k
    · subst hk
      rw [if_pos rfl]
      simp only [alookup]
      rw [if_neg (fun h : k2 = q => hq h.symm), if_neg (fun h : k2 = q => hq h.symm)]
    · rw [if_neg hk]
      simp only [alookup]
      by_cases h2 : k2 = q
      · rw [if_pos h2, if_pos h2]
      · rw [if_neg h2, if_neg h2]; exact ih

theorem mem_akeys_pyInsert_old {α β : Type} [DecidableEq α] (m : List (α × β))
    (k c : α) (v : β) (hc : c ∈ akeys m) : c ∈ akeys (pyInsert m k v) := by
  induction m with
  | nil => simp [akeys] at hc
  | cons hd t ih =>
    obtain ⟨k2, v2⟩ := hd
    simp only [pyInsert]
    by_cases hk : k2 = k
    · rw [if_pos hk]
      simp only [akeys, List.map_cons, List.mem_cons] at hc ⊢
      rcases hc with h1 | h2
      · exact Or.inl (by rw [h1, hk])
      · exact Or.inr h2
    · rw [if_neg hk]
      simp only [akeys, List.map_cons, List.mem_cons] at hc ⊢
      rcases hc with h1 | h2
      · exact Or.inl h1
      · exact Or.inr (ih h2)

theorem self_mem_akeys_pyInsert {α β : Type} [DecidableEq α] (m : List (α × β))
    (k : α) (v : β) : k ∈ akeys (pyInsert m k v) := by
  induction m with
  | nil => simp [pyInsert, akeys]
  | cons hd t ih =>
    obtain ⟨k2, v2⟩ := hd
    simp only [pyInsert]
    by_cases hk : k2 = k
    · rw [if_pos hk]; simp [akeys]
    · rw [if_neg hk]
      simp only [akeys, List.map_cons, List.mem_cons]
      exact Or.inr ih

theorem mem_akeys_pyUpdate_old {α β : Type} [DecidableEq α] (ops : List (α × β)) :
    ∀ (m : List (α × β)) (c : α), c ∈ akeys m → c ∈ akeys (pyUpdate m ops) := by
  induction ops with
  | nil => intro m c hc; exact hc
  | cons op rest ih =>
    intro m c hc
    simp only [pyUpdate, List.foldl_cons]
    exact ih _ c (mem_akeys_pyInsert_old m op.1 c op.2 hc)

theorem mem_akeys_pyUpdate_ops {α β : Type} [DecidableEq α] (ops : List (α × β)) :
    ∀ (m : List (α × β)) (c : α), c ∈ akeys ops → c ∈ akeys (pyUpdate m ops) := by
  induction ops with
  | nil => intro m c hc; simp [akeys] at hc
  | cons op rest ih =>
    intro m c hc
    simp only [akeys, List.map_cons, List.mem_cons] at hc
    simp only [pyUpdate, List.foldl_cons]
    rcases hc with h1 | h2
    · subst h1
      exact mem_akeys_pyUpdate_old rest _ _ (self_mem_akeys_pyInsert m op.1 op.2)
    · exact ih _ c h2

theorem mem_pyUpdate_decompose {α β : Type} [DecidableEq α] (ops : List (α × β)) :
    ∀ (m : List (α × β)) (x : α × β), x ∈ pyUpdate m ops → x ∈ m ∨ x.1 ∈ akeys ops := by
  induction ops with
  | nil => intro m x hx; exact Or.inl hx
  | cons op rest ih =>
    intro m x hx
    simp only [pyUpdate, List.foldl_cons] at hx
    rcases ih _ x hx with h1 | h2
    · rcases mem_pyInsert _ _ _ _ h1 with h3 | h4
      · exact Or.inl h3
      · subst h4
        exact Or.inr (by simp [akeys])
    · exact Or.inr (by simp only [akeys, List.map_cons, List.mem_cons]; exact Or.inr h2)

theorem prefixesOf_nodup (b : Branch) : (prefixesOf b).Nodup := by
  unfold prefixesOf
  refine List.Nodup.map_on ?_ (List.nodup_range _)
  intro i hi j hj hij
  have hli : (b.take (i + 1)).length = i + 1 := by
    rw [List.length_take]
    exact Nat.min_eq_left (List.mem_range.mp hi)
  have hlj : (b.take (j + 1)).length = j + 1 := by
    rw [List.length_take]
    exact Nat.min_eq_left (List.mem_range.mp hj)
  have := hij ▸ hli
  omega

theorem prefixesOf_trans (br b p : Branch) (hb : b ∈ prefixesOf br)
    (hp : p ∈ prefixesOf b) : p ∈ prefixesOf br := by
  unfold prefixesOf at hb hp ⊢
  obtain ⟨j, hj, rfl⟩ := List.mem_map.mp hb
  obtain ⟨i, hi, rfl⟩ := List.mem_map.mp hp
  have hj2 := List.mem_range.mp hj
  have hi2 := List.mem_range.mp hi
  have hilen : i + 1 ≤ j + 1 := by
    have := List.length_take (j + 1) br
    omega
  refine List.mem_map.mpr ⟨i, List.mem_range.mpr ?_, ?_⟩
  · have := List.length_take (j + 1) br
    omega
  · rw [List.take_take]
    rw [Nat.min_eq_left hilen]

theorem foldl_famUpd_lookup (leafs : Leafs) :
    ∀ (ps : List Branch) (fam : Families) (q : Branch), ps.Nodup →
      alookup q (ps.foldl (famUpd leafs) fam) =
        if q ∈ ps then
          some (match alookup q fam with | some m => pyUpdate m leafs | none => leafs)
        else alookup q fam := by
  intro ps
  induction ps with
  | nil => intro fam q _; simp
  | cons p rest ih =>
    intro fam q hnd
    have hnd2 : rest.Nodup := (List.nodup_cons.mp hnd).2
    have hpnot : p ∉ rest := (List.nodup_cons.mp hnd).1
    simp only [List.foldl_cons]
    rw [ih (famUpd leafs fam p) q hnd2]
    by_cases hq : q = p
    · subst hq
      rw [if_neg hpnot, if_pos (List.mem_cons_self q rest)]
      unfold famUpd
      rw [alookup_pyInsert_self]
    · have h1 : alookup q (famUpd leafs fam p) = alookup q fam := by
        unfold famUpd
        exact alookup_pyInsert_ne _ _ _ _ hq
      by_cases hqin : q ∈ rest
      · rw [if_pos hqin, if_pos (List.mem_cons_of_mem _ hqin), h1]
      · rw [if_neg hqin, h1, if_neg (by simp [hq, hqin])]

theorem famStep_lookup (fam : Families) (br : Branch) (leafs : Leafs) (q : Branch) :
    alookup q (famStep fam br leafs) =
      if q ∈ prefixesOf br then
        some (match alookup q fam with | some m => pyUpdate m leafs | none => leafs)
      else alookup q fam := by
  unfold famStep
  exact foldl_famUpd_lookup leafs (prefixesOf br) fam q (prefixesOf_nodup br)

/-- Ancestor-inclusion invariant at the level of codes. -/
def FamInv (fam : Families) : Prop :=
  ∀ b mB, alookup b fam = some mB →
    ∀ p ∈ prefixesOf b, ∃ mP, alookup p fam = some mP ∧ ∀ cn ∈ mB, cn.1 ∈ akeys mP

theorem famStep_preserves_inv (fam : Families) (br : Branch) (leafs : Leafs)
    (hinv : FamInv fam) : FamInv (famStep fam br leafs) := by
  intro b mB hB p hp
  rw [famStep_lookup] at hB
  by_cases hbin : b ∈ prefixesOf br
  · rw [if_pos hbin] at hB
    have hpin : p ∈ prefixesOf br := prefixesOf_trans br b p hbin hp
    rcases hold : alookup b fam with _ | mBold
    · rw [hold] at hB
      cases hB
      refine ⟨_, by rw [famStep_lookup, if_pos hpin], ?_⟩
      intro cn hcn
      rcases hPold : alookup p fam with _ | mPold
      · exact List.mem_map.mpr ⟨cn, hcn, rfl⟩
      · exact mem_akeys_pyUpdate_ops _ _ _ (List.mem_map.mpr ⟨cn, hcn, rfl⟩)
    · rw [hold] at hB
      cases hB
      obtain ⟨mPold, hPold, hkeys⟩ := hinv b mBold hold p hp
      refine ⟨_, by rw [famStep_lookup, if_pos hpin], ?_⟩
      rw [hPold]
      intro cn hcn
      rcases mem_pyUpdate_decompose _ _ _ hcn with h1 | h2
      · exact mem_akeys_pyUpdate_old _ _ _ (hkeys cn h1)
      · exact mem_akeys_pyUpdate_ops _ _ _ h2
  · rw [if_neg hbin] at hB
    obtain ⟨mPold, hPold, hkeys⟩ := hinv b mB hB p hp
    by_cases hpin : p ∈ prefixesOf br
    · refine ⟨_, by rw [famStep_lookup, if_pos hpin], ?_⟩
      rw [hPold]
      intro cn hcn
      exact mem_akeys_pyUpdate_old _ _ _ (hkeys cn hcn)
    · exact ⟨mPold, by rw [famStep_lookup, if_neg hpin]; exact hPold, hkeys⟩

theorem parseFamilies_fst (blocks : List FamBlock) :
    ∀ st : Families × Languages,
      (parseFamilies blocks st).1 =
        blocks.foldl (fun f b => famStep f b.branch b.leafs) st.1 := by
  induction blocks with
  | nil => intro st; rfl
  | cons b rest ih =>
    intro st
    simp only [parseFamilies, List.foldl_cons] at ih ⊢
    exact ih (famStep st.1 b.branch b.leafs, langStep st.2 b)

theorem parseFamilies_inv (blocks : List FamBlock) :
    ∀ (fam0 : Families), FamInv fam0 →
      FamInv (blocks.foldl (fun f b => famStep f b.branch b.leafs) fam0) := by
  induction blocks with
  | nil => intro fam0 h; exact h
  | cons b rest ih =>
    intro fam0 h
    simp only [List.foldl_cons]
    exact ih _ (famStep_preserves_inv _ _ _ h)

/-- Counterexample to claim C7 as stated: in a file where the code `aaa`
occurs with name `NameOne` under branch `F, B` and with name `NameTwo`
under branch `F, C`, the accumulated leaf-map of the ancestor `("F",)`
keeps only the later name, so the (code, name) entry `(aaa, NameOne)` of
branch `("F", "B")` is not contained in its ancestor's leaf-map. -/
theorem parseFamilies_pair_containment_cex :
    (splitFamilies id c7Input).map
      (fun bs => ancestorEntriesContained (parseFamilies bs ([], [])).1) =
      Except.ok false := by
  decide

/-- Claim C7, amended: after `parse_families` processes its input, for
every branch `b` of the families map and every non-empty prefix `p` of
`b`, the map has an entry for `p` whose leaf-map contains every code of
the leaf-map of `b`; containment holds for the code keys, while the
associated names can differ when a code occurs with two different names
in the input (which is what the counterexample exploits). -/
theorem parseFamilies_ancestor_key_containment
    (blocks : List FamBlock) (b : Branch) (mB : Leafs)
    (hB : alookup b (parseFamilies blocks ([], [])).1 = some mB) :
    ∀ p ∈ prefixesOf b,
      ∃ mP, alookup p (parseFamilies blocks ([], [])).1 = some mP ∧
        ∀ cn ∈ mB, cn.1 ∈ akeys mP := by
  intro p hp
  rw [parseFamilies_fst] at hB ⊢
  refine parseFamilies_inv blocks [] ?_ b mB hB p hp
  intro b2 m2 h2 p2 hp2
  exact Option.noConfusion h2

/-- Witness for the amended C7 on the counterexample file itself: the
code `aaa` of branch `("F", "B")` is a key of the ancestor entry
`("F",)`. -/
theorem parseFamilies_ancestor_key_containment_witness :
    ∃ mP,
      alookup ["F"]
        (parseFamilies
          [FamBlock.mk ["F", "B"] "established" "" [("aaa", "NameOne")],
           FamBlock.mk ["F", "C"] "established" "" [("aaa", "NameTwo")]]
          ([], [])).1 = some mP ∧
      ∀ cn ∈ [("aaa", "NameOne")], cn.1 ∈ akeys mP :=
  parseFamilies_ancestor_key_containment
    [FamBlock.mk ["F", "B"] "established" "" [("aaa", "NameOne")],
     FamBlock.mk ["F", "C"] "established" "" [("aaa", "NameTwo")]]
    ["F", "B"] [("aaa", "NameOne")] (by decide) ["F"] (by decide)

/-! ## Claim C8: idempotence of parsing -/

theorem pyUpdate_cons {α β : Type} [DecidableEq α] (m : List (α × β)) (k : α) (v : β)
    (rest : List (α × β)) : pyUpdate m ((k, v) :: rest) = pyUpdate (pyInsert m k v) rest := rfl

theorem alookup_eq_none {α β : Type} [DecidableEq α] (m : List (α × β)) (q : α)
    (hq : q ∉ akeys m) : alookup q m = none := by
  induction m with
  | nil => rfl
  | cons hd t ih =>
    obtain ⟨k2, v2⟩ := hd
    simp only [akeys, List.map_cons, List.mem_cons] at hq
    push_neg at hq
    simp only [alookup]
    rw [if_neg (fun h : k2 = q => hq.1 h.symm)]
    exact ih hq.2

theorem alookup_isSome_of_mem {α β : Type} [DecidableEq α] (m : List (α × β)) (q : α)
    (hq : q ∈ akeys m) : ∃ v, alookup q m = some v := by
  induction m with
  | nil => simp [akeys] at hq
  | cons hd t ih =>
    obtain ⟨k2, v2⟩ := hd
    simp only [akeys, List.map_cons, List.mem_cons] at hq
    by_cases h2 : k2 = q
    · exact ⟨v2, by simp [alookup, h2]⟩
    · rcases hq with h1 | h3
      · exact absurd h1.symm h2
      · obtain ⟨v, hv⟩ := ih h3
        exact ⟨v, by simp [alookup, if_neg h2, hv]⟩

theorem assoc_ext {α β : Type} [DecidableEq α] :
    ∀ (m1 m2 : List (α × β)), (akeys m1).Nodup → (akeys m2).Nodup →
      akeys m1 = akeys m2 → (∀ q, alookup q m1 = alookup q m2) → m1 = m2 := by
  intro m1
  induction m1 with
  | nil =>
    intro m2 _ _ hkeys _
    cases m2 with
    | nil => rfl
    | cons hd t => simp [akeys] at hkeys
  | cons hd t ih =>
    intro m2 hnd1 hnd2 hkeys hlook
    obtain ⟨k, v⟩ := hd
    cases m2 with
    | nil => simp [akeys] at hkeys
    | cons hd2 t2 =>
      obtain ⟨k2, v2⟩ := hd2
      simp only [akeys, List.map_cons, List.cons.injEq] at hkeys
      obtain ⟨hk, htkeys⟩ := hkeys
      subst hk
      have hv : v = v2 := by
        have h1 := hlook k
        simp [alookup] at h1
        exact h1
      subst hv
      have hnd1t : (akeys t).Nodup := (List.nodup_cons.mp hnd1).2
      have hnd2t : (akeys t2).Nodup := (List.nodup_cons.mp hnd2).2
      have hknot1 : k ∉ akeys t := (List.nodup_cons.mp hnd1).1
      have hknot2 : k ∉ akeys t2 := (List.nodup_cons.mp hnd2).1
      have htl : ∀ q, alookup q t = alookup q t2 := by
        intro q
        by_cases hq : k = q
        · subst hq
          rw [alookup_eq_none t k hknot1, alookup_eq_none t2 k hknot2]
        · have h2 := hlook q
          simp only [alookup, if_neg hq] at h2
          exact h2
      rw [ih t2 hnd1t hnd2t htkeys htl]

theorem akeys_pyInsert_mem {α β : Type} [DecidableEq α] (m : List (α × β))
    (k : α) (v : β) (hk : k ∈ akeys m) : akeys (pyInsert m k v) = akeys m := by
  induction m with
  | nil => simp [akeys] at hk
  | cons hd t ih =>
    obtain ⟨k2, v2⟩ := hd
    simp only [pyInsert]
    by_cases h2 : k2 = k
    · rw [if_pos h2]
      simp [akeys, h2]
    · rw [if_neg h2]
      simp only [akeys, List.map_cons, List.cons.injEq, true_and] at ih ⊢
      refine ih ?_
      simp only [akeys, List.map_cons, List.mem_cons] at hk
      rcases hk with h3 | h4
      · exact absurd h3.symm h2
      · exact h4

theorem akeys_pyInsert_not_mem {α β : Type} [DecidableEq α] (m : List (α × β))
    (k : α) (v : β) (hk : k ∉ akeys m) : akeys (pyInsert m k v) = akeys m ++ [k] := by
  induction m with
  | nil => simp [pyInsert, akeys]
  | cons hd t ih =>
    obtain ⟨k2, v2⟩ := hd
    simp only [akeys, List.map_cons, List.mem_cons] at hk
    push_neg at hk
    simp only [pyInsert]
    rw [if_neg (fun h : k2 = k => hk.1 h.symm)]
    simp only [akeys, List.map_cons, List.cons_append, List.cons.injEq, true_and]
    exact ih hk.2

theorem nodup_akeys_pyInsert {α β : Type} [DecidableEq α] (m : List (α × β))
    (k : α) (v : β) (hnd : (akeys m).Nodup) : (akeys (pyInsert m k v)).Nodup := by
  by_cases hk : k ∈ akeys m
  · rw [akeys_pyInsert_mem m k v hk]; exact hnd
  · rw [akeys_pyInsert_not_mem m k v hk]
    rw [List.nodup_append]
    refine ⟨hnd, List.nodup_singleton k, ?_⟩
    intro a ha hb
    rw [List.mem_singleton] at hb
    subst hb
    exact hk ha

theorem nodup_akeys_pyUpdate {α β : Type} [DecidableEq α] (ops : List (α × β)) :
    ∀ (m : List (α × β)), (akeys m).Nodup → (akeys (pyUpdate m ops)).Nodup := by
  induction ops with
  | nil => intro m h; exact h
  | cons op rest ih =>
    intro m h
    simp only [pyUpdate, List.foldl_cons]
    exact ih _ (nodup_akeys_pyInsert m op.1 op.2 h)

theorem alookup_append {α β : Type} [DecidableEq α] (l1 l2 : List (α × β)) (q : α) :
    alookup q (l1 ++ l2) =
      match alookup q l1 with
      | some v => some v
      | none => alookup q l2 := by
  induction l1 with
  | nil => rfl
  | cons hd t ih =>
    obtain ⟨k2, v2⟩ := hd
    simp only [List.cons_append, alookup]
    by_cases h2 : k2 = q
    · rw [if_pos h2, if_pos h2]
    · rw [if_neg h2, if_neg h2]; exact ih

theorem alookup_pyUpdate {α β : Type} [DecidableEq α] (ops : List (α × β)) :
    ∀ (m : List (α × β)) (q : α),
      alookup q (pyUpdate m ops) =
        match alookup q ops.reverse with
        | some v => some v
        | none => alookup q m := by
  induction ops with
  | nil => intro m q; rfl
  | cons op rest ih =>
    intro m q
    obtain ⟨k, v⟩ := op
    rw [pyUpdate_cons, ih (pyInsert m k v) q, List.reverse_cons, alookup_append]
    rcases hrest : alookup q rest.reverse with _ | w
    · simp only []
      by_cases hk : k = q
      · subst hk
        simp [alookup, alookup_pyInsert_self]
      · rw [show alookup q [(k, v)] = none by
          simp only [alookup]
          rw [if_neg hk]]
        simp only []
        rw [alookup_pyInsert_ne m k q v (fun h => hk h.symm)]
    · rfl

theorem akeys_pyUpdate_covered {α β : Type} [DecidableEq α] (ops : List (α × β)) :
    ∀ (m : List (α × β)), (∀ c ∈ akeys ops, c ∈ akeys m) →
      akeys (pyUpdate m ops) = akeys m := by
  induction ops with
  | nil => intro m _; rfl
  | cons op rest ih =>
    intro m hcov
    obtain ⟨k, v⟩ := op
    have hk : k ∈ akeys m := hcov k (by simp [akeys])
    have h1 : akeys (pyInsert m k v) = akeys m := akeys_pyInsert_mem m k v hk
    rw [pyUpdate_cons]
    rw [ih (pyInsert m k v) (by
      intro c hc
      rw [h1]
      exact hcov c (by simp only [akeys, List.map_cons, List.mem_cons]; exact Or.inr hc))]
    exact h1

theorem pyUpdate_replay {α β : Type} [DecidableEq α] (m ops : List (α × β))
    (hnd : (akeys m).Nodup) : pyUpdate (pyUpdate m ops) ops = pyUpdate m ops := by
  have hnd1 : (akeys (pyUpdate m ops)).Nodup := nodup_akeys_pyUpdate ops m hnd
  refine assoc_ext _ _ (nodup_akeys_pyUpdate ops _ hnd1) hnd1 ?_ ?_
  · exact akeys_pyUpdate_covered ops _ (fun c hc => mem_akeys_pyUpdate_ops ops m c hc)
  · intro q
    rw [alookup_pyUpdate, alookup_pyUpdate]
    cases alookup q ops.reverse <;> rfl

theorem pyInsert_not_mem_append {α β : Type} [DecidableEq α] (m : List (α × β))
    (k : α) (v : β) (hk : k ∉ akeys m) : pyInsert m k v = m ++ [(k, v)] := by
  induction m with
  | nil => rfl
  | cons hd t ih =>
    obtain ⟨k2, v2⟩ := hd
    simp only [akeys, List.map_cons, List.mem_cons] at hk
    push_neg at hk
    simp only [pyInsert]
    rw [if_neg (fun h : k2 = k => hk.1 h.symm)]
    simp only [List.cons_append, List.cons.injEq, true_and]
    exact ih hk.2

theorem pyUpdate_disjoint_append {α β : Type} [DecidableEq α] (ops : List (α × β)) :
    ∀ (m : List (α × β)), (akeys ops).Nodup → (∀ c ∈ akeys ops, c ∉ akeys m) →
      pyUpdate m ops = m ++ ops := by
  induction ops with
  | nil => intro m _ _; simp [pyUpdate]
  | cons op rest ih =>
    intro m hnd hdis
    obtain ⟨k, v⟩ := op
    have hk : k ∉ akeys m := hdis k (by simp [akeys])
    have hnd2 : (k :: akeys rest).Nodup := hnd
    have hknotr : k ∉ akeys rest := (List.nodup_cons.mp hnd2).1
    have hndr : (akeys rest).Nodup := (List.nodup_cons.mp hnd2).2
    rw [pyUpdate_cons]
    rw [pyInsert_not_mem_append m k v hk]
    rw [ih (m ++ [(k, v)]) hndr ?_]
    · simp
    · intro c hc
      have hc2 : c ∈ akeys ((k, v) :: rest) := by
        simp only [akeys, List.map_cons, List.mem_cons]
        exact Or.inr hc
      have hcm : c ∉ akeys m := hdis c hc2
      intro hmem
      rw [show akeys (m ++ [(k, v)]) = akeys m ++ [k] by simp [akeys]] at hmem
      rcases List.mem_append.mp hmem with h3 | h4
      · exact hcm h3
      · rw [List.mem_singleton] at h4
        exact hknotr (h4 ▸ hc)

theorem pyUpdate_nil {α β : Type} [DecidableEq α] (l : List (α × β))
    (hnd : (akeys l).Nodup) : pyUpdate [] l = l := by
  rw [pyUpdate_disjoint_append l [] hnd (by intro c _; simp [akeys])]
  simp

theorem pyUpdate_append {α β : Type} [DecidableEq α] (m ops1 ops2 : List (α × β)) :
    pyUpdate m (ops1 ++ ops2) = pyUpdate (pyUpdate m ops1) ops2 := by
  simp [pyUpdate, List.foldl_append]

theorem mem_of_alookup_some {α β : Type} [DecidableEq α] (m : List (α × β)) (q : α)
    (v : β) (h : alookup q m = some v) : q ∈ akeys m := by
  induction m with
  | nil => exact Option.noConfusion h
  | cons hd t ih =>
    obtain ⟨k2, v2⟩ := hd
    simp only [alookup] at h
    simp only [akeys, List.map_cons, List.mem_cons]
    by_cases h2 : k2 = q
    · exact Or.inl h2.symm
    · rw [if_neg h2] at h
      exact Or.inr (ih h)

theorem parseFamilies_snd (blocks : List FamBlock) :
    ∀ st : Families × Languages,
      (parseFamilies blocks st).2 = blocks.foldl langStep st.2 := by
  induction blocks with
  | nil => intro st; rfl
  | cons b rest ih =>
    intro st
    simp only [parseFamilies, List.foldl_cons] at ih ⊢
    exact ih (famStep st.1 b.branch b.leafs, langStep st.2 b)

theorem foldl_langStep_eq (blocks : List FamBlock) :
    ∀ l : Languages, blocks.foldl langStep l = pyUpdate l (allLangOps blocks) := by
  induction blocks with
  | nil => intro l; rfl
  | cons b rest ih =>
    intro l
    simp only [List.foldl_cons]
    rw [ih (langStep l b)]
    rw [show allLangOps (b :: rest) = langOps b ++ allLangOps rest from rfl,
       pyUpdate_append]
    rfl

theorem lookup_foldl_famStep (blocks : List FamBlock) :
    ∀ (fam : Families) (p : Branch),
      alookup p (blocks.foldl (fun f b => famStep f b.branch b.leafs) fam) =
        blocks.foldl (gpStep p) (alookup p fam) := by
  induction blocks with
  | nil => intro fam p; rfl
  | cons b rest ih =>
    intro fam p
    simp only [List.foldl_cons]
    rw [ih (famStep fam b.branch b.leafs)]
    have h : alookup p (famStep fam b.branch b.leafs) = gpStep p (alookup p fam) b := by
      rw [famStep_lookup]
      rfl
    rw [h]

theorem foldl_gp_some (p : Branch) (blocks : List FamBlock) :
    ∀ w : Leafs, blocks.foldl (gpStep p) (some w) = some (pyUpdate w (touchOps p blocks)) := by
  induction blocks with
  | nil => intro w; rfl
  | cons b rest ih =>
    intro w
    simp only [List.foldl_cons]
    by_cases hp : p ∈ prefixesOf b.branch
    · rw [show gpStep p (some w) b = some (pyUpdate w b.leafs) from by
        unfold gpStep; rw [if_pos hp]]
      rw [ih (pyUpdate w b.leafs)]
      rw [show touchOps p (b :: rest) = b.leafs ++ touchOps p rest from by
        unfold touchOps; simp [hp]]
      rw [pyUpdate_append]
    · rw [show gpStep p (some w) b = some w from by unfold gpStep; rw [if_neg hp]]
      rw [ih w]
      rw [show touchOps p (b :: rest) = touchOps p rest from by
        unfold touchOps; simp [hp]]

theorem foldl_gp_none (p : Branch) (blocks : List FamBlock)
    (hnd : ∀ b ∈ blocks, (akeys b.leafs).Nodup) :
    (blocks.foldl (gpStep p) none = none ∧ touchOps p blocks = []) ∨
    blocks.foldl (gpStep p) none = some (pyUpdate [] (touchOps p blocks)) := by
  induction blocks with
  | nil => exact Or.inl ⟨rfl, rfl⟩
  | cons b rest ih =>
    have hndb : (akeys b.leafs).Nodup := hnd b (List.mem_cons_self b rest)
    have hndr : ∀ x ∈ rest, (akeys x.leafs).Nodup :=
      fun x hx => hnd x (List.mem_cons_of_mem b hx)
    simp only [List.foldl_cons]
    by_cases hp : p ∈ prefixesOf b.branch
    · rw [show gpStep p none b = some b.leafs from by unfold gpStep; rw [if_pos hp]]
      rw [foldl_gp_some p rest b.leafs]
      refine Or.inr ?_
      rw [show touchOps p (b :: rest) = b.leafs ++ touchOps p rest from by
        unfold touchOps; simp [hp]]
      rw [pyUpdate_append, pyUpdate_nil b.leafs hndb]
    · rw [show gpStep p none b = none from by unfold gpStep; rw [if_neg hp]]
      rw [show touchOps p (b :: rest) = touchOps p rest from by
        unfold touchOps; simp [hp]]
      exact ih hndr

theorem foldl_gp_replay (p : Branch) (blocks : List FamBlock)
    (hnd : ∀ b ∈ blocks, (akeys b.leafs).Nodup) :
    blocks.foldl (gpStep p) (blocks.foldl (gpStep p) none) =
      blocks.foldl (gpStep p) none := by
  rcases foldl_gp_none p blocks hnd with ⟨h1, _⟩ | h1
  · rw [h1]
    exact h1
  · rw [h1, foldl_gp_some]
    rw [pyUpdate_replay [] (touchOps p blocks) List.nodup_nil]

theorem mem_akeys_famStep_mono (fam : Families) (br : Branch) (leafs : Leafs)
    (q : Branch) (hq : q ∈ akeys fam) : q ∈ akeys (famStep fam br leafs) := by
  unfold famStep
  generalize prefixesOf br = ps
  induction ps generalizing fam with
  | nil => exact hq
  | cons p rest ih =>
    simp only [List.foldl_cons]
    exact ih (famUpd leafs fam p) (mem_akeys_pyInsert_old fam p q _ hq)

theorem mem_prefix_akeys_famStep (fam : Families) (br : Branch) (leafs : Leafs)
    (p : Branch) (hp : p ∈ prefixesOf br) : p ∈ akeys (famStep fam br leafs) := by
  have h := famStep_lookup fam br leafs p
  rw [if_pos hp] at h
  exact mem_of_alookup_some _ _ _ h

theorem akeys_famStep_covered (fam : Families) (br : Branch) (leafs : Leafs)
    (hcov : ∀ p ∈ prefixesOf br, p ∈ akeys fam) :
    akeys (famStep fam br leafs) = akeys fam := by
  unfold famStep
  have hgen : ∀ (ps : List Branch) (f : Families), (∀ p ∈ ps, p ∈ akeys f) →
      akeys (ps.foldl (famUpd leafs) f) = akeys f := by
    intro ps
    induction ps with
    | nil => intro f _; rfl
    | cons p rest ih =>
      intro f hc
      simp only [List.foldl_cons]
      have h1 : akeys (famUpd leafs f p) = akeys f := by
        unfold famUpd
        exact akeys_pyInsert_mem f p _ (hc p (List.mem_cons_self p rest))
      rw [ih (famUpd leafs f p) (by
        intro x hx
        rw [h1]
        exact hc x (List.mem_cons_of_mem p hx))]
      exact h1
  exact hgen (prefixesOf br) fam hcov

theorem nodup_akeys_famStep (fam : Families) (br : Branch) (leafs : Leafs)
    (hnd : (akeys fam).Nodup) : (akeys (famStep fam br leafs)).Nodup := by
  unfold famStep
  generalize prefixesOf br = ps
  induction ps generalizing fam with
  | nil => exact hnd
  | cons p rest ih =>
    simp only [List.foldl_cons]
    exact ih (famUpd leafs fam p) (nodup_akeys_pyInsert fam p _ hnd)

theorem nodup_akeys_foldl_famStep (blocks : List FamBlock) :
    ∀ fam : Families, (akeys fam).Nodup →
      (akeys (blocks.foldl (fun f b => famStep f b.branch b.leafs) fam)).Nodup := by
  induction blocks with
  | nil => intro fam h; exact h
  | cons b rest ih =>
    intro fam h
    simp only [List.foldl_cons]
    exact ih _ (nodup_akeys_famStep fam b.branch b.leafs h)

theorem mem_akeys_foldl_famStep_mono (blocks : List FamBlock) :
    ∀ (fam : Families) (q : Branch), q ∈ akeys fam →
      q ∈ akeys (blocks.foldl (fun f b => famStep f b.branch b.leafs) fam) := by
  induction blocks with
  | nil => intro fam q h; exact h
  | cons b rest ih =>
    intro fam q h
    simp only [List.foldl_cons]
    exact ih _ q (mem_akeys_famStep_mono fam b.branch b.leafs q h)

theorem prefixes_present_after (blocks : List FamBlock) :
    ∀ (fam : Families) (b : FamBlock), b ∈ blocks → ∀ p ∈ prefixesOf b.branch,
      p ∈ akeys (blocks.foldl (fun f bl => famStep f bl.branch bl.leafs) fam) := by
  induction blocks with
  | nil => intro fam b hb; simp at hb
  | cons b0 rest ih =>
    intro fam b hb p hp
    simp only [List.foldl_cons]
    rcases List.mem_cons.mp hb with h1 | h2
    · subst h1
      exact mem_akeys_foldl_famStep_mono rest _ p
        (mem_prefix_akeys_famStep fam b.branch b.leafs p hp)
    · exact ih _ b h2 p hp

theorem akeys_foldl_famStep_covered (blocks : List FamBlock) :
    ∀ fam : Families,
      (∀ b ∈ blocks, ∀ p ∈ prefixesOf b.branch, p ∈ akeys fam) →
      akeys (blocks.foldl (fun f b => famStep f b.branch b.leafs) fam) = akeys fam := by
  induction blocks with
  | nil => intro fam _; rfl
  | cons b rest ih =>
    intro fam hcov
    simp only [List.foldl_cons]
    have h1 : akeys (famStep fam b.branch b.leafs) = akeys fam :=
      akeys_famStep_covered fam b.branch b.leafs
        (fun p hp => hcov b (List.mem_cons_self b rest) p hp)
    rw [ih _ (by
      intro bl hbl p hp
      rw [h1]
      exact hcov bl (List.mem_cons_of_mem b hbl) p hp)]
    exact h1

theorem families_replay (blocks : List FamBlock)
    (hnd : ∀ b ∈ blocks, (akeys b.leafs).Nodup) :
    blocks.foldl (fun f b => famStep f b.branch b.leafs)
        (blocks.foldl (fun f b => famStep f b.branch b.leafs) []) =
      blocks.foldl (fun f b => famStep f b.branch b.leafs) [] := by
  have hnd1 : (akeys (blocks.foldl (fun f b => famStep f b.branch b.leafs)
      ([] : Families))).Nodup :=
    nodup_akeys_foldl_famStep blocks [] List.nodup_nil
  refine assoc_ext _ _ (nodup_akeys_foldl_famStep blocks _ hnd1) hnd1 ?_ ?_
  · exact akeys_foldl_famStep_covered blocks _
      (fun b hb p hp => prefixes_present_after blocks [] b hb p hp)
  · intro q
    rw [lookup_foldl_famStep, lookup_foldl_famStep]
    have h0 : alookup q ([] : Families) = none := rfl
    rw [h0]
    exact foldl_gp_replay q blocks hnd

theorem sfLoop_leafs_nodup (unescape : String → String) :
    ∀ (lines : List String) (cur : Option FamBlock) (acc blocks : List FamBlock),
      (∀ b ∈ acc, (akeys b.leafs).Nodup) →
      (∀ fam, cur = some fam → (akeys fam.leafs).Nodup) →
      sfLoop unescape lines cur acc = Except.ok blocks →
      ∀ b ∈ blocks, (akeys b.leafs).Nodup := by
  intro lines
  induction lines with
  | nil =>
    intro cur acc blocks hacc hcur hrun
    cases cur with
    | some fam =>
      simp only [sfLoop] at hrun
      cases hrun
      intro b hb
      rcases List.mem_append.mp hb with h1 | h2
      · exact hacc b h1
      · rw [List.mem_singleton.mp h2]
        exact hcur fam rfl
    | none =>
      simp only [sfLoop] at hrun
      exact Except.noConfusion hrun
  | cons line rest ih =>
    intro cur acc blocks hacc hcur hrun
    simp only [sfLoop] at hrun
    by_cases hblank : pyStrip line = ""
    · rw [if_pos hblank] at hrun
      exact ih cur acc blocks hacc hcur hrun
    · rw [if_neg hblank] at hrun
      by_cases hleaf : pyStartsWith line "  " = true
      · rw [if_pos hleaf] at hrun
        cases cur with
        | none => exact absurd hrun (by simp)
        | some fam =>
          simp only at hrun
          rcases hsplit : pySplit '[' (pyStrip line) with _ | ⟨name0, rest2⟩
          · rw [hsplit] at hrun; exact absurd hrun (by simp)
          · rcases rest2 with _ | ⟨rawCode, rest3⟩
            · rw [hsplit] at hrun; exact absurd hrun (by simp)
            · rcases rest3 with _ | ⟨x, xs⟩
              · rw [hsplit] at hrun
                simp only at hrun
                by_cases hempty : extractCode rawCode = ""
                · rw [if_pos hempty] at hrun; exact absurd hrun (by simp)
                · rw [if_neg hempty] at hrun
                  by_cases hvalid : validCode (extractCode rawCode) = true
                  · rw [if_pos hvalid] at hrun
                    refine ih _ acc blocks hacc ?_ hrun
                    intro fam2 hfam2
                    cases hfam2
                    exact nodup_akeys_pyInsert fam.leafs _ _ (hcur fam rfl)
                  · rw [if_neg hvalid] at hrun; exact absurd hrun (by simp)
              · rw [hsplit] at hrun; exact absurd hrun (by simp)
      · rw [if_neg hleaf] at hrun
        cases cur with
        | some fam =>
          simp only at hrun
          refine ih _ (acc ++ [fam]) blocks ?_ ?_ hrun
          · intro b hb
            rcases List.mem_append.mp hb with h1 | h2
            · exact hacc b h1
            · rw [List.mem_singleton.mp h2]; exact hcur fam rfl
          · intro fam2 hfam2
            cases hfam2
            exact List.nodup_nil
        | none =>
          simp only at hrun
          refine ih _ acc blocks hacc ?_ hrun
          intro fam2 hfam2
          cases hfam2
          exact List.nodup_nil

theorem splitFamilies_leafs_nodup (unescape : String → String) (input : String)
    (blocks : List FamBlock) (h : splitFamilies unescape input = Except.ok blocks) :
    ∀ b ∈ blocks, (akeys b.leafs).Nodup := by
  refine sfLoop_leafs_nodup unescape (pySplit (Char.ofNat 10) input) none [] blocks ?_ ?_ h
  · intro b hb; simp at hb
  · intro fam hfam; exact Option.noConfusion hfam

/-- Claim C8: `parse_families` is idempotent: for every input file that
parses successfully, parsing it a second time into the `families` and
`languages` maps already populated by the first parse leaves both maps
with contents identical to the result of one parse. -/
theorem parseFamilies_idempotent (unescape : String → String) (input : String)
    (blocks : List FamBlock) (h : splitFamilies unescape input = Except.ok blocks) :
    parseFamilies blocks (parseFamilies blocks ([], [])) =
      parseFamilies blocks ([], []) := by
  have hnd := splitFamilies_leafs_nodup unescape input blocks h
  have hfst : (parseFamilies blocks (parseFamilies blocks ([], []))).1 =
      (parseFamilies blocks ([], [])).1 := by
    rw [parseFamilies_fst, parseFamilies_fst]
    exact families_replay blocks hnd
  have hsnd : (parseFamilies blocks (parseFamilies blocks ([], []))).2 =
      (parseFamilies blocks ([], [])).2 := by
    rw [parseFamilies_snd, parseFamilies_snd, foldl_langStep_eq, foldl_langStep_eq]
    exact pyUpdate_replay [] (allLangOps blocks) List.nodup_nil
  exact Prod.ext hfst hsnd

/-- Witness for C8 on a concrete two-block file. -/
theorem parseFamilies_idempotent_witness :
    splitFamilies id "Fam, Sub\n  L one [abc]\nOther\n  L two [def]" =
      Except.ok [FamBlock.mk ["Fam", "Sub"] "established" "" [("abc", "L one")],
                 FamBlock.mk ["Other"] "established" "" [("def", "L two")]] ∧
    parseFamilies
        [FamBlock.mk ["Fam", "Sub"] "established" "" [("abc", "L one")],
         FamBlock.mk ["Other"] "established" "" [("def", "L two")]]
        (parseFamilies
          [FamBlock.mk ["Fam", "Sub"] "established" "" [("abc", "L one")],
           FamBlock.mk ["Other"] "established" "" [("def", "L two")]] ([], [])) =
      parseFamilies
        [FamBlock.mk ["Fam", "Sub"] "established" "" [("abc", "L one")],
         FamBlock.mk ["Other"] "established" "" [("def", "L two")]] ([], []) :=
  ⟨by decide,
   parseFamilies_idempotent id "Fam, Sub\n  L one [abc]\nOther\n  L two [def]" _ (by decide)⟩

/-! ## Claim C10: every emitted instruction carries the languoid core keys -/

theorem isSome_alookup_pyInsert {α β : Type} [DecidableEq α] (m : List (α × β))
    (k q : α) (v : β) (h : (alookup q m).isSome = true) :
    (alookup q (pyInsert m k v)).isSome = true := by
  by_cases hq : q = k
  · subst hq
    rw [alookup_pyInsert_self]
    rfl
  · rw [alookup_pyInsert_ne m k q v hq]
    exact h

theorem hasCoreKeys_pyInsert (d : Instr) (k : String) (v : Value)
    (h : hasCoreKeys d = true) : hasCoreKeys (pyInsert d k v) = true := by
  unfold hasCoreKeys at h ⊢
  simp only [Bool.and_eq_true] at h ⊢
  obtain ⟨⟨⟨⟨h1, h2⟩, h3⟩, h4⟩, h5⟩ := h
  exact ⟨⟨⟨⟨isSome_alookup_pyInsert d k _ v h1, isSome_alookup_pyInsert d k _ v h2⟩,
    isSome_alookup_pyInsert d k _ v h3⟩, isSome_alookup_pyInsert d k _ v h4⟩,
    isSome_alookup_pyInsert d k _ v h5⟩

theorem hasCoreKeys_pyUpdate (ops : List (String × Value)) :
    ∀ d : Instr, hasCoreKeys d = true → hasCoreKeys (pyUpdate d ops) = true := by
  induction ops with
  | nil => intro d h; exact h
  | cons op rest ih =>
    intro d h
    rw [show pyUpdate d (op :: rest) = pyUpdate (pyInsert d op.1 op.2) rest from rfl]
    exact ih _ (hasCoreKeys_pyInsert d op.1 op.2 h)

theorem languoid_hasCoreKeys (pk : Value) (level : String) (kw : List (String × Value)) :
    hasCoreKeys (languoid pk level kw) = true := by
  unfold languoid
  exact hasCoreKeys_pyUpdate kw _ rfl

theorem foldE_out_prop {σ α : Type} {P : Instr → Prop} (f : σ → α → Except String σ)
    (outOf : σ → List Instr)
    (hstep : ∀ s x s2, f s x = Except.ok s2 →
      ∀ d ∈ outOf s2, d ∈ outOf s ∨ P d) :
    ∀ (xs : List α) (s0 s : σ), foldE f s0 xs = Except.ok s →
      ∀ d ∈ outOf s, d ∈ outOf s0 ∨ P d := by
  intro xs
  induction xs with
  | nil =>
    intro s0 s h d hd
    cases h
    exact Or.inl hd
  | cons x rest ih =>
    intro s0 s h d hd
    simp only [foldE] at h
    split at h
    · rename_i s1 hs1
      rcases ih s1 s h d hd with h1 | h2
      · exact hstep s0 x s1 hs1 d h1
      · exact Or.inr h2
    · exact Except.noConfusion h

theorem foldl_out_prop {σ α : Type} {P : Instr → Prop} (f : σ → α → σ)
    (outOf : σ → List Instr)
    (hstep : ∀ s x, ∀ d ∈ outOf (f s x), d ∈ outOf s ∨ P d) :
    ∀ (xs : List α) (s0 : σ), ∀ d ∈ outOf (xs.foldl f s0),
      d ∈ outOf s0 ∨ P d := by
  intro xs
  induction xs with
  | nil => intro s0 d hd; exact Or.inl hd
  | cons x rest ih =>
    intro s0 d hd
    simp only [List.foldl_cons] at hd
    rcases ih (f s0 x) d hd with h1 | h2
    · exact hstep s0 x d h1
    · exact Or.inr h2

theorem newLangStep_out (codes : List (String × Nat))
    (coords : List (String × Value × Value)) (gc : String → String)
    (st : NewLangResult) (cl : String × LangEntry) :
    ∀ d ∈ (newLangStep codes coords gc st cl).out, d ∈ st.out ∨ hasCoreKeys d = true := by
  intro d hd
  unfold newLangStep at hd
  split at hd
  · exact Or.inl hd
  · split at hd
    · simp only [] at hd
      rcases List.mem_append.mp hd with h1 | h2
      · exact Or.inl h1
      · rw [List.mem_singleton.mp h2]
        exact Or.inr (hasCoreKeys_pyInsert _ _ _ (hasCoreKeys_pyInsert _ _ _
          (languoid_hasCoreKeys _ _ _)))
    · simp only [] at hd
      rcases List.mem_append.mp hd with h1 | h2
      · exact Or.inl h1
      · rw [List.mem_singleton.mp h2]
        exact Or.inr (languoid_hasCoreKeys _ _ _)

theorem emitNewStep_out (fam : Families) (rgl : List (List String × List GLNode))
    (todo : List Migration) (gc : String → String) (st : EmitNewState) (hnode : Branch)
    (st2 : EmitNewState) (h : emitNewStep fam rgl todo gc st hnode = Except.ok st2) :
    ∀ d ∈ st2.out, d ∈ st.out ∨ hasCoreKeys d = true := by
  intro d hd
  unfold emitNewStep at h
  split at h
  · cases h; exact Or.inl hd
  · split at h
    · exact Except.noConfusion h
    · split at h
      · exact Except.noConfusion h
      · split at h
        · exact Except.noConfusion h
        · split at h
          · split at h
            · split at h
              · exact Except.noConfusion h
              · cases h
                simp only [] at hd
                rcases List.mem_append.mp hd with h1 | h2
                · exact Or.inl h1
                · rw [List.mem_singleton.mp h2]
                  exact Or.inr (hasCoreKeys_pyInsert _ _ _ (languoid_hasCoreKeys _ _ _))
            · exact Except.noConfusion h
          · cases h
            simp only [] at hd
            rcases List.mem_append.mp hd with h1 | h2
            · exact Or.inl h1
            · rw [List.mem_singleton.mp h2]
              exact Or.inr (languoid_hasCoreKeys _ _ _)

theorem emitUpdRetire_out (b2pk : List (Branch × Nat)) (attrs : Instr)
    (out : List Instr) (m : Migration) (out2 : List Instr)
    (h : emitUpdRetire b2pk attrs out m = Except.ok out2)
    (hattrs : hasCoreKeys attrs = true) :
    ∀ d ∈ out2, d ∈ out ∨ hasCoreKeys d = true := by
  intro d hd
  unfold emitUpdRetire at h
  split at h
  · split at h
    · cases h
      rcases List.mem_append.mp hd with h1 | h2
      · exact Or.inl h1
      · rw [List.mem_singleton.mp h2]
        exact Or.inr (hasCoreKeys_pyInsert _ _ _ hattrs)
    · split at h
      · cases h
        rcases List.mem_append.mp hd with h1 | h2
        · exact Or.inl h1
        · rw [List.mem_singleton.mp h2]
          exact Or.inr (hasCoreKeys_pyInsert _ _ _ (hasCoreKeys_pyInsert _ _ _ hattrs))
      · exact Except.noConfusion h
  · cases h
    rcases List.mem_append.mp hd with h1 | h2
    · exact Or.inl h1
    · rw [List.mem_singleton.mp h2]
      exact Or.inr (hasCoreKeys_pyInsert _ _ _ hattrs)

theorem updRename_keys (m : Migration) (last : String) (attrs2 : Instr)
    (h : hasCoreKeys attrs2 = true) : hasCoreKeys (updRename m last attrs2) = true := by
  unfold updRename
  split
  · exact hasCoreKeys_pyInsert _ _ _ h
  · exact h

theorem emitUpdStep_out (lnames : List (Nat × String)) (b2pk : List (Branch × Nat))
    (out : List Instr) (m : Migration) (out2 : List Instr)
    (h : emitUpdStep lnames b2pk out m = Except.ok out2) :
    ∀ d ∈ out2, d ∈ out ∨ hasCoreKeys d = true := by
  unfold emitUpdStep at h
  split at h
  · exact Except.noConfusion h
  · split at h
    · split at h
      · exact Except.noConfusion h
      · cases h
        intro d hd
        rcases List.mem_append.mp hd with h1 | h2
        · exact Or.inl h1
        · rw [List.mem_singleton.mp h2]
          refine Or.inr (hasCoreKeys_pyInsert _ _ _ (updRename_keys _ _ _ ?_))
          split
          · exact hasCoreKeys_pyInsert _ _ _ (languoid_hasCoreKeys _ _ _)
          · exact languoid_hasCoreKeys _ _ _
      · split at h
        · exact Except.noConfusion h
        · cases h
          intro d hd
          rcases List.mem_append.mp hd with h1 | h2
          · exact Or.inl h1
          · rw [List.mem_singleton.mp h2]
            exact Or.inr (hasCoreKeys_pyInsert _ _ _ (updRename_keys _ _ _
              (languoid_hasCoreKeys _ _ _)))
    · exact emitUpdRetire_out _ _ _ _ _ h (languoid_hasCoreKeys _ _ _)
    · exact emitUpdRetire_out _ _ _ _ _ h (languoid_hasCoreKeys _ _ _)

theorem emitLangFinish_keys (riso rcol : List (String × String)) (cl : String × LangEntry)
    (attrs2 : Instr) (h : hasCoreKeys attrs2 = true) :
    hasCoreKeys (emitLangFinish riso rcol cl attrs2) = true := by
  unfold emitLangFinish
  split
  · split
    · exact hasCoreKeys_pyInsert _ _ _ (hasCoreKeys_pyInsert _ _ _
        (hasCoreKeys_pyInsert _ _ _ h))
    · exact hasCoreKeys_pyInsert _ _ _ (hasCoreKeys_pyInsert _ _ _ h)
  · split
    · exact hasCoreKeys_pyInsert _ _ _ (hasCoreKeys_pyInsert _ _ _ h)
    · exact hasCoreKeys_pyInsert _ _ _ h

theorem emitLangStep_out (codes ncodes : List (String × Nat))
    (b2pk : List (Branch × Nat)) (riso rcol : List (String × String))
    (out : List Instr) (cl : String × LangEntry) (out2 : List Instr)
    (h : emitLangStep codes ncodes b2pk riso rcol out cl = Except.ok out2) :
    ∀ d ∈ out2, d ∈ out ∨ hasCoreKeys d = true := by
  unfold emitLangStep at h
  split at h
  · split at h
    · cases h
      intro d hd
      rcases List.mem_append.mp hd with h1 | h2
      · exact Or.inl h1
      · rw [List.mem_singleton.mp h2]
        exact Or.inr (emitLangFinish_keys _ _ _ _ (hasCoreKeys_pyInsert _ _ _
          (languoid_hasCoreKeys _ _ _)))
    · exact Except.noConfusion h
  · cases h
    intro d hd
    rcases List.mem_append.mp hd with h1 | h2
    · exact Or.inl h1
    · rw [List.mem_singleton.mp h2]
      exact Or.inr (emitLangFinish_keys _ _ _ _ (languoid_hasCoreKeys _ _ _))
  · cases h
    intro d hd
    rcases List.mem_append.mp hd with h1 | h2
    · exact Or.inl h1
    · rw [List.mem_singleton.mp h2]
      exact Or.inr (emitLangFinish_keys _ _ _ _ (languoid_hasCoreKeys _ _ _))

theorem nocodeStep_out (langs : Languages) (out : List Instr) (r : Nat × String) :
    ∀ d ∈ nocodeStep langs out r, d ∈ out ∨ hasCoreKeys d = true := by
  intro d hd
  unfold nocodeStep at hd
  split at hd
  · exact Or.inl hd
  · rcases List.mem_append.mp hd with h1 | h2
    · exact Or.inl h1
    · rw [List.mem_singleton.mp h2]
      exact Or.inr (languoid_hasCoreKeys _ _ _)

theorem akeys_reverse {α β : Type} (m : List (α × β)) :
    akeys m.reverse = (akeys m).reverse := by
  unfold akeys
  exact List.map_reverse _ _

theorem languoid_default (pk : Value) (level : String) (kw : List (String × Value))
    (k : String) (hk : k ∉ akeys kw) :
    alookup k (languoid pk level kw) =
      alookup k [("pk", pk), ("level", Value.str level), ("active", Value.bool true),
                 ("father_pk", Value.null), ("status", Value.str "established")] := by
  unfold languoid
  rw [alookup_pyUpdate]
  rw [alookup_eq_none kw.reverse k (by
    rw [akeys_reverse, List.mem_reverse]
    exact hk)]

theorem newLanguages_out (codes : List (String × Nat))
    (coords : List (String × Value × Value)) (gc : String → String)
    (langs : Languages) (maxid0 : Nat) :
    ∀ d ∈ (newLanguages codes coords gc langs maxid0).out, hasCoreKeys d = true := by
  intro d hd
  rcases foldl_out_prop (newLangStep codes coords gc) NewLangResult.out
    (fun s x d2 hd2 => newLangStep_out codes coords gc s x d2 hd2) langs
    (NewLangResult.mk [] [] maxid0) d hd with h1 | h2
  · simp at h1
  · exact h2

theorem emitNewFamilies_out (fam : Families) (rgl : List (List String × List GLNode))
    (todo : List Migration) (gc : String → String) (st0 st : EmitNewState)
    (h : emitNewFamilies fam rgl todo gc st0 = Except.ok st) :
    ∀ d ∈ st.out, d ∈ st0.out ∨ hasCoreKeys d = true :=
  foldE_out_prop (emitNewStep fam rgl todo gc) EmitNewState.out
    (fun s x s2 hs => emitNewStep_out fam rgl todo gc s x s2 hs)
    (sortedBranches fam) st0 st h

theorem emitUpdates_out (todo : List Migration) (lnames : List (Nat × String))
    (b2pk : List (Branch × Nat)) (us : List Instr)
    (h : emitUpdates todo lnames b2pk = Except.ok us) :
    ∀ d ∈ us, hasCoreKeys d = true := by
  intro d hd
  rcases foldE_out_prop (emitUpdStep lnames b2pk) (fun l => l)
    (fun s x s2 hs => emitUpdStep_out lnames b2pk s x s2 hs) todo [] us h d hd with h1 | h2
  · simp at h1
  · exact h2

theorem emitLanguageUpdates_out (langs : Languages) (codes ncodes : List (String × Nat))
    (b2pk : List (Branch × Nat)) (riso rcol : List (String × String)) (ls : List Instr)
    (h : emitLanguageUpdates langs codes ncodes b2pk riso rcol = Except.ok ls) :
    ∀ d ∈ ls, hasCoreKeys d = true := by
  intro d hd
  rcases foldE_out_prop (emitLangStep codes ncodes b2pk riso rcol) (fun l => l)
    (fun s x s2 hs => emitLangStep_out codes ncodes b2pk riso rcol s x s2 hs)
    langs [] ls h d hd with h1 | h2
  · simp at h1
  · exact h2

theorem emitNocode_out (rows : List (Nat × String)) (langs : Languages) :
    ∀ d ∈ emitNocode rows langs, hasCoreKeys d = true := by
  intro d hd
  rcases foldl_out_prop (nocodeStep langs) (fun l => l)
    (fun s x d2 hd2 => nocodeStep_out langs s x d2 hd2) rows [] d hd with h1 | h2
  · simp at h1
  · exact h2

/-- Claim C10: every instruction in a successful `mainEmit` output carries
the keys `pk`, `level`, `active`, `father_pk` and `status` (they are
written by `languoid` and never removed), and `languoid` itself defaults
`active` to true, `father_pk` to null and `status` to `established`
whenever the keyword arguments do not override them. -/
theorem mainEmit_core_keys (inp : MainInput) (out : List Instr)
    (h : mainEmit inp = Except.ok out) :
    (∀ d ∈ out, hasCoreKeys d = true) ∧
    (∀ pk level kw, "active" ∉ akeys kw →
      alookup "active" (languoid pk level kw) = some (Value.bool true)) ∧
    (∀ pk level kw, "father_pk" ∉ akeys kw →
      alookup "father_pk" (languoid pk level kw) = some Value.null) ∧
    (∀ pk level kw, "status" ∉ akeys kw →
      alookup "status" (languoid pk level kw) = some (Value.str "established")) := by
  refine ⟨?_, ?_, ?_, ?_⟩
  · unfold mainEmit at h
    split at h
    · exact Except.noConfusion h
    · split at h
      · exact Except.noConfusion h
      · split at h
        split at h
        · exact Except.noConfusion h
        · split at h
          · exact Except.noConfusion h
          · split at h
            · exact Except.noConfusion h
            · split at h
              · exact Except.noConfusion h
              · rename_i ens hens
                split at h
                · exact Except.noConfusion h
                · rename_i updates hupdates
                  split at h
                  · exact Except.noConfusion h
                  · rename_i langInstrs hlang
                    cases h
                    intro d hd
                    rcases List.mem_append.mp hd with hd4 | hd5
                    rcases List.mem_append.mp hd4 with hd3 | hd35
                    rcases List.mem_append.mp hd3 with hd2 | hd25
                    rcases List.mem_append.mp hd2 with hd1 | hd15
                    · exact newLanguages_out _ _ _ _ _ d hd1
                    · rcases emitNewFamilies_out _ _ _ _ _ _ hens d hd15 with h1 | h2
                      · simp at h1
                      · exact h2
                    · exact emitUpdates_out _ _ _ _ hupdates d hd25
                    · exact emitLanguageUpdates_out _ _ _ _ _ _ _ hlang d hd35
                    · exact emitNocode_out _ _ d hd5
  · intro pk level kw hk
    rw [languoid_default pk level kw _ hk]
    rfl
  · intro pk level kw hk
    rw [languoid_default pk level kw _ hk]
    rfl
  · intro pk level kw hk
    rw [languoid_default pk level kw _ hk]
    rfl

/-- Witness for C10 on the concrete input `mainX`. -/
theorem mainEmit_core_keys_witness :
    mainEmit mainX = Except.ok mainXOut ∧ ∀ d ∈ mainXOut, hasCoreKeys d = true :=
  ⟨by decide, (mainEmit_core_keys mainX mainXOut (by decide)).1⟩

/-! ## Claim C1: parent references in the emitted instruction stream -/

theorem not_mem_of_alookup_none {α β : Type} [DecidableEq α] (m : List (α × β)) (q : α)
    (h : alookup q m = none) : q ∉ akeys m := by
  intro hq
  obtain ⟨v, hv⟩ := alookup_isSome_of_mem m q hq
  rw [hv] at h
  exact Option.noConfusion h

theorem alookup_some_val_mem {α β : Type} [DecidableEq α] (m : List (α × β)) (q : α)
    (v : β) (h : alookup q m = some v) : v ∈ m.map (fun kv => kv.2) := by
  induction m with
  | nil => exact Option.noConfusion h
  | cons hd t ih =>
    obtain ⟨k2, v2⟩ := hd
    simp only [alookup] at h
    simp only [List.map_cons, List.mem_cons]
    by_cases h2 : k2 = q
    · rw [if_pos h2] at h
      exact Or.inl (Option.some.inj h).symm
    · rw [if_neg h2] at h
      exact Or.inr (ih h)

theorem b2pkVals_pyInsert (m : List (Branch × Nat)) (k : Branch) (val : Nat) (v : Nat)
    (h : v ∈ b2pkVals (pyInsert m k val)) : v ∈ b2pkVals m ∨ v = val := by
  unfold b2pkVals at h ⊢
  obtain ⟨kv, hkv, hv⟩ := List.mem_map.mp h
  rcases mem_pyInsert _ _ _ _ hkv with h1 | h2
  · exact Or.inl (List.mem_map.mpr ⟨kv, h1, hv⟩)
  · subst h2
    exact Or.inr hv.symm

theorem b2pkVals_pyInsert_mono (m : List (Branch × Nat)) (k : Branch) (val : Nat)
    (hk : k ∉ akeys m) (v : Nat) (hv : v ∈ b2pkVals m) :
    v ∈ b2pkVals (pyInsert m k val) := by
  rw [pyInsert_not_mem_append m k val hk]
  unfold b2pkVals at hv ⊢
  rw [List.map_append]
  exact List.mem_append.mpr (Or.inl hv)

theorem b2pkVals_pyInsert_self (m : List (Branch × Nat)) (k : Branch) (val : Nat)
    (hk : k ∉ akeys m) : val ∈ b2pkVals (pyInsert m k val) := by
  rw [pyInsert_not_mem_append m k val hk]
  unfold b2pkVals
  rw [List.map_append]
  exact List.mem_append.mpr (Or.inr (by simp))

theorem matchedPks_cons (m : Migration) (rest : List Migration) :
    matchedPks (m :: rest) =
      if truthyBranch m.hid then m.pk :: matchedPks rest else matchedPks rest := by
  unfold matchedPks
  rw [List.filter_cons]
  by_cases ht : truthyBranch m.hid
  · rw [if_pos ht, if_pos ht]
    rfl
  · rw [if_neg ht, if_neg ht]

theorem matchedPks_cons_mono (m : Migration) (rest : List Migration) (v : Nat)
    (hv : v ∈ matchedPks rest) : v ∈ matchedPks (m :: rest) := by
  rw [matchedPks_cons]
  split
  · exact List.mem_cons_of_mem _ hv
  · exact hv

theorem matchedPks_mem (todo : List Migration) (p : Nat) (hp : p ∈ matchedPks todo) :
    ∃ m ∈ todo, m.pk = p := by
  unfold matchedPks at hp
  obtain ⟨m, hm, hpk⟩ := List.mem_map.mp hp
  exact ⟨m, List.mem_filter.mp hm |>.1, hpk⟩

theorem b2pkStep_fold_vals :
    ∀ (todo : List Migration) (acc b2pk : List (Branch × Nat)),
      foldE b2pkStep acc todo = Except.ok b2pk →
      ∀ v ∈ b2pkVals b2pk, v ∈ b2pkVals acc ∨ v ∈ matchedPks todo := by
  intro todo
  induction todo with
  | nil =>
    intro acc b2pk h v hv
    cases h
    exact Or.inl hv
  | cons m rest ih =>
    intro acc b2pk h v hv
    simp only [foldE] at h
    split at h
    · rename_i acc1 hacc1
      have hrec := ih acc1 b2pk h v hv
      unfold b2pkStep at hacc1
      split at hacc1
      · rename_i hbr
        split at hacc1
        · cases hacc1
          rcases hrec with h1 | h2
          · exact Or.inl h1
          · exact Or.inr (matchedPks_cons_mono m rest v h2)
        · split at hacc1
          · exact Except.noConfusion hacc1
          · cases hacc1
            rcases hrec with h1 | h2
            · rcases b2pkVals_pyInsert _ _ _ _ h1 with h3 | h4
              · exact Or.inl h3
              · subst h4
                refine Or.inr ?_
                rw [matchedPks_cons]
                rw [if_pos (by
                  rename_i hne _
                  rw [hbr]
                  unfold truthyBranch
                  simp only [Bool.not_eq_true']
                  exact Bool.not_eq_true _ ▸ (by
                    intro hcontra
                    exact hne (by rwa [hcontra] at hne) ))]
                exact List.mem_cons_self _ _
            · exact Or.inr (matchedPks_cons_mono m rest v h2)
      · cases hacc1
        rcases hrec with h1 | h2
        · exact Or.inl h1
        · exact Or.inr (matchedPks_cons_mono m rest v h2)
    · exact Except.noConfusion h

theorem buildBranchToPk_vals (todo : List Migration) (b2pk : List (Branch × Nat))
    (h : buildBranchToPk todo = Except.ok b2pk) :
    ∀ v ∈ b2pkVals b2pk, v ∈ matchedPks todo := by
  intro v hv
  rcases b2pkStep_fold_vals todo [] b2pk h v hv with h1 | h2
  · simp [b2pkVals] at h1
  · exact h2

/-- Counterexample to claim C1 as stated: on the input `mainX` the new
subfamily instruction (pk 11) carries `father_pk` 10, but the instruction
with pk 10 — the update of the matched old family — is emitted only
after the new-family block, so no earlier instruction carries pk 10. -/
theorem mainEmit_father_earlier_cex :
    (mainEmit mainX).map fatherRefsEarlier = Except.ok false := by
  decide

theorem father_pyInsert_ne (d : Instr) (k : String) (v : Value) (hk : ¬(k = "father_pk")) :
    alookup "father_pk" (pyInsert d k v) = alookup "father_pk" d :=
  alookup_pyInsert_ne d k "father_pk" v (fun h2 => hk h2.symm)

theorem pk_pyInsert_ne (d : Instr) (k : String) (v : Value) (hk : ¬(k = "pk")) :
    alookup "pk" (pyInsert d k v) = alookup "pk" d :=
  alookup_pyInsert_ne d k "pk" v (fun h2 => hk h2.symm)

theorem newLangAttrs_father (gc : String → String) (maxid : Nat) (code : String)
    (e : LangEntry) : alookup "father_pk" (newLangAttrs gc maxid code e) = some Value.null := by
  unfold newLangAttrs
  rw [languoid_default _ _ _ "father_pk" (by simp [akeys])]
  rfl

theorem newFamAttrs_pk (gc : String → String) (maxid : Nat) (last : String) :
    alookup "pk" (newFamAttrs gc maxid last) = some (Value.int maxid) := by
  unfold newFamAttrs
  rw [languoid_default _ _ _ "pk" (by simp [akeys])]
  rfl

theorem newFamAttrs_father (gc : String → String) (maxid : Nat) (last : String) :
    alookup "father_pk" (newFamAttrs gc maxid last) = some Value.null := by
  unfold newFamAttrs
  rw [languoid_default _ _ _ "father_pk" (by simp [akeys])]
  rfl

theorem updBase_pk (nm : String) (m : Migration) :
    alookup "pk" (updBase nm m) = some (Value.int m.pk) := by
  unfold updBase
  rw [languoid_default _ _ _ "pk" (by simp [akeys])]
  rfl

theorem updBase_father (nm : String) (m : Migration) :
    alookup "father_pk" (updBase nm m) = some Value.null := by
  unfold updBase
  rw [languoid_default _ _ _ "father_pk" (by simp [akeys])]
  rfl

theorem langAttrs_father (codes ncodes : List (String × Nat)) (cl : String × LangEntry) :
    alookup "father_pk" (langAttrs codes ncodes cl) = some Value.null := by
  unfold langAttrs
  rw [languoid_default _ _ _ "father_pk" (by simp [akeys])]
  rfl

theorem updRename_father (m : Migration) (last : String) (attrs2 : Instr) :
    alookup "father_pk" (updRename m last attrs2) = alookup "father_pk" attrs2 := by
  unfold updRename
  split
  · exact father_pyInsert_ne _ _ _ (by decide)
  · rfl

theorem updRename_pk (m : Migration) (last : String) (attrs2 : Instr) :
    alookup "pk" (updRename m last attrs2) = alookup "pk" attrs2 := by
  unfold updRename
  split
  · exact pk_pyInsert_ne _ _ _ (by decide)
  · rfl

theorem emitLangFinish_father (riso rcol : List (String × String)) (cl : String × LangEntry)
    (attrs2 : Instr) :
    alookup "father_pk" (emitLangFinish riso rcol cl attrs2) = alookup "father_pk" attrs2 := by
  unfold emitLangFinish
  split
  · split
    · rw [father_pyInsert_ne _ _ _ (by decide), father_pyInsert_ne _ _ _ (by decide),
         father_pyInsert_ne _ _ _ (by decide)]
    · rw [father_pyInsert_ne _ _ _ (by decide), father_pyInsert_ne _ _ _ (by decide)]
  · split
    · rw [father_pyInsert_ne _ _ _ (by decide), father_pyInsert_ne _ _ _ (by decide)]
    · rw [father_pyInsert_ne _ _ _ (by decide)]

theorem foldE_inv {σ α : Type} (f : σ → α → Except String σ) (I : σ → Prop)
    (hstep : ∀ s x s2, f s x = Except.ok s2 → I s → I s2) :
    ∀ (xs : List α) (s0 s : σ), foldE f s0 xs = Except.ok s → I s0 → I s := by
  intro xs
  induction xs with
  | nil =>
    intro s0 s h hI
    cases h
    exact hI
  | cons x rest ih =>
    intro s0 s h hI
    simp only [foldE] at h
    split at h
    · rename_i s1 hs1
      exact ih s1 s h (hstep s0 x s1 hs1 hI)
    · exact Except.noConfusion h

theorem newLangStep_father (codes : List (String × Nat))
    (coords : List (String × Value × Value)) (gc : String → String)
    (st : NewLangResult) (cl : String × LangEntry) :
    ∀ d ∈ (newLangStep codes coords gc st cl).out,
      d ∈ st.out ∨ alookup "father_pk" d = some Value.null := by
  intro d hd
  unfold newLangStep at hd
  split at hd
  · exact Or.inl hd
  · split at hd
    · simp only [] at hd
      rcases List.mem_append.mp hd with h1 | h2
      · exact Or.inl h1
      · rw [List.mem_singleton.mp h2]
        refine Or.inr ?_
        rw [father_pyInsert_ne _ _ _ (by decide), father_pyInsert_ne _ _ _ (by decide)]
        exact newLangAttrs_father _ _ _ _
    · simp only [] at hd
      rcases List.mem_append.mp hd with h1 | h2
      · exact Or.inl h1
      · rw [List.mem_singleton.mp h2]
        exact Or.inr (newLangAttrs_father _ _ _ _)

theorem newLanguages_father (codes : List (String × Nat))
    (coords : List (String × Value × Value)) (gc : String → String)
    (langs : Languages) (maxid0 : Nat) :
    ∀ d ∈ (newLanguages codes coords gc langs maxid0).out,
      alookup "father_pk" d = some Value.null := by
  intro d hd
  rcases foldl_out_prop (newLangStep codes coords gc) NewLangResult.out
    (fun s x d2 hd2 => newLangStep_father codes coords gc s x d2 hd2) langs
    (NewLangResult.mk [] [] maxid0) d hd with h1 | h2
  · simp at h1
  · exact h2

theorem nocodeStep_father (langs : Languages) (out : List Instr) (r : Nat × String) :
    ∀ d ∈ nocodeStep langs out r, d ∈ out ∨ alookup "father_pk" d = some Value.null := by
  intro d hd
  unfold nocodeStep at hd
  split at hd
  · exact Or.inl hd
  · rcases List.mem_append.mp hd with h1 | h2
    · exact Or.inl h1
    · rw [List.mem_singleton.mp h2]
      exact Or.inr rfl

theorem emitNocode_father (rows : List (Nat × String)) (langs : Languages) :
    ∀ d ∈ emitNocode rows langs, alookup "father_pk" d = some Value.null := by
  intro d hd
  rcases foldl_out_prop (nocodeStep langs) (fun l => l)
    (fun s x d2 hd2 => nocodeStep_father langs s x d2 hd2) rows [] d hd with h1 | h2
  · simp at h1
  · exact h2

theorem emitUpdRetire_father (b2pk : List (Branch × Nat)) (attrs : Instr)
    (out : List Instr) (m : Migration) (out2 : List Instr)
    (h : emitUpdRetire b2pk attrs out m = Except.ok out2)
    (hattrs : alookup "father_pk" attrs = some Value.null) :
    ∀ d ∈ out2, d ∈ out ∨ alookup "father_pk" d = some Value.null := by
  intro d hd
  unfold emitUpdRetire at h
  split at h
  · split at h
    · cases h
      rcases List.mem_append.mp hd with h1 | h2
      · exact Or.inl h1
      · rw [List.mem_singleton.mp h2]
        refine Or.inr ?_
        rw [father_pyInsert_ne _ _ _ (by decide)]
        exact hattrs
    · split at h
      · cases h
        rcases List.mem_append.mp hd with h1 | h2
        · exact Or.inl h1
        · rw [List.mem_singleton.mp h2]
          refine Or.inr ?_
          rw [father_pyInsert_ne _ _ _ (by decide), father_pyInsert_ne _ _ _ (by decide)]
          exact hattrs
      · exact Except.noConfusion h
  · cases h
    rcases List.mem_append.mp hd with h1 | h2
    · exact Or.inl h1
    · rw [List.mem_singleton.mp h2]
      refine Or.inr ?_
      rw [father_pyInsert_ne _ _ _ (by decide)]
      exact hattrs

theorem emitUpdStep_father (lnames : List (Nat × String)) (b2pk : List (Branch × Nat))
    (out : List Instr) (m : Migration) (out2 : List Instr)
    (h : emitUpdStep lnames b2pk out m = Except.ok out2) :
    ∀ d ∈ out2, d ∈ out ∨
      ∀ p, alookup "father_pk" d = some (Value.int p) → p ∈ b2pkVals b2pk := by
  unfold emitUpdStep at h
  split at h
  · exact Except.noConfusion h
  · split at h
    · split at h
      · exact Except.noConfusion h
      · rename_i heqf heql
        cases h
        intro d hd
        rcases List.mem_append.mp hd with h1 | h2
        · exact Or.inl h1
        · rw [List.mem_singleton.mp h2]
          refine Or.inr ?_
          intro p hp
          rw [father_pyInsert_ne _ _ _ (by decide), updRename_father] at hp
          split at hp
          · rw [alookup_pyInsert_self] at hp
            have hpf := Option.some.inj hp
            have : p = _ := (Value.int.inj hpf).symm
            subst this
            exact alookup_some_val_mem _ _ _ heqf
          · rw [updBase_father] at hp
            exact Value.noConfusion (Option.some.inj hp)
      · split at h
        · exact Except.noConfusion h
        · cases h
          intro d hd
          rcases List.mem_append.mp hd with h1 | h2
          · exact Or.inl h1
          · rw [List.mem_singleton.mp h2]
            refine Or.inr ?_
            intro p hp
            rw [father_pyInsert_ne _ _ _ (by decide), updRename_father,
               updBase_father] at hp
            exact Value.noConfusion (Option.some.inj hp)
    · intro d hd
      rcases emitUpdRetire_father _ _ _ _ _ h (updBase_father _ _) d hd with h1 | h2
      · exact Or.inl h1
      · refine Or.inr ?_
        intro p hp
        rw [h2] at hp
        exact Value.noConfusion (Option.some.inj hp)
    · intro d hd
      rcases emitUpdRetire_father _ _ _ _ _ h (updBase_father _ _) d hd with h1 | h2
      · exact Or.inl h1
      · refine Or.inr ?_
        intro p hp
        rw [h2] at hp
        exact Value.noConfusion (Option.some.inj hp)

theorem emitUpdates_father (todo : List Migration) (lnames : List (Nat × String))
    (b2pk : List (Branch × Nat)) (us : List Instr)
    (h : emitUpdates todo lnames b2pk = Except.ok us) :
    ∀ d ∈ us, ∀ p, alookup "father_pk" d = some (Value.int p) → p ∈ b2pkVals b2pk := by
  intro d hd
  rcases foldE_out_prop (emitUpdStep lnames b2pk) (fun l => l)
    (fun s x s2 hs => emitUpdStep_father lnames b2pk s x s2 hs) todo [] us h d hd
    with h1 | h2
  · simp at h1
  · exact h2

theorem emitLangStep_father (codes ncodes : List (String × Nat))
    (b2pk : List (Branch × Nat)) (riso rcol : List (String × String))
    (out : List Instr) (cl : String × LangEntry) (out2 : List Instr)
    (h : emitLangStep codes ncodes b2pk riso rcol out cl = Except.ok out2) :
    ∀ d ∈ out2, d ∈ out ∨
      ∀ p, alookup "father_pk" d = some (Value.int p) → p ∈ b2pkVals b2pk := by
  unfold emitLangStep at h
  split at h
  · split at h
    · rename_i heqf
      cases h
      intro d hd
      rcases List.mem_append.mp hd with h1 | h2
      · exact Or.inl h1
      · rw [List.mem_singleton.mp h2]
        refine Or.inr ?_
        intro p hp
        rw [emitLangFinish_father, alookup_pyInsert_self] at hp
        have : p = _ := (Value.int.inj (Option.some.inj hp)).symm
        subst this
        exact alookup_some_val_mem _ _ _ heqf
    · exact Except.noConfusion h
  · cases h
    intro d hd
    rcases List.mem_append.mp hd with h1 | h2
    · exact Or.inl h1
    · rw [List.mem_singleton.mp h2]
      refine Or.inr ?_
      intro p hp
      rw [emitLangFinish_father, langAttrs_father] at hp
      exact Value.noConfusion (Option.some.inj hp)
  · cases h
    intro d hd
    rcases List.mem_append.mp hd with h1 | h2
    · exact Or.inl h1
    · rw [List.mem_singleton.mp h2]
      refine Or.inr ?_
      intro p hp
      rw [emitLangFinish_father, langAttrs_father] at hp
      exact Value.noConfusion (Option.some.inj hp)

theorem emitLanguageUpdates_father (langs : Languages) (codes ncodes : List (String × Nat))
    (b2pk : List (Branch × Nat)) (riso rcol : List (String × String)) (ls : List Instr)
    (h : emitLanguageUpdates langs codes ncodes b2pk riso rcol = Except.ok ls) :
    ∀ d ∈ ls, ∀ p, alookup "father_pk" d = some (Value.int p) → p ∈ b2pkVals b2pk := by
  intro d hd
  rcases foldE_out_prop (emitLangStep codes ncodes b2pk riso rcol) (fun l => l)
    (fun s x s2 hs => emitLangStep_father codes ncodes b2pk riso rcol s x s2 hs)
    langs [] ls h d hd with h1 | h2
  · simp at h1
  · exact h2

theorem emitNew_guard_fresh (st : EmitNewState) (hnode : Branch)
    (hguard : ¬((alookup hnode st.b2pk).isSome = true)) : hnode ∉ akeys st.b2pk := by
  refine not_mem_of_alookup_none _ _ ?_
  cases hopt : alookup hnode st.b2pk with
  | none => rfl
  | some v => exact absurd (by rw [hopt]; rfl) hguard

theorem dropLast_ne_self (hnode : Branch) (hlen : hnode.length > 1) :
    hnode.dropLast ≠ hnode := by
  intro hcontra
  have := congrArg List.length hcontra
  rw [List.length_dropLast] at this
  omega

theorem emitNew_father_inv (fam : Families) (rgl : List (List String × List GLNode))
    (todo : List Migration) (gc : String → String) (st0 ens : EmitNewState)
    (h : emitNewFamilies fam rgl todo gc st0 = Except.ok ens)
    (h0 : ∀ d ∈ st0.out, ∀ p, alookup "father_pk" d = some (Value.int p) →
      p ∈ b2pkVals st0.b2pk) :
    ∀ d ∈ ens.out, ∀ p, alookup "father_pk" d = some (Value.int p) →
      p ∈ b2pkVals ens.b2pk := by
  refine foldE_inv (emitNewStep fam rgl todo gc)
    (fun s => ∀ d ∈ s.out, ∀ p, alookup "father_pk" d = some (Value.int p) →
      p ∈ b2pkVals s.b2pk) ?_ (sortedBranches fam) st0 ens h h0
  intro s x s2 hs hI
  unfold emitNewStep at hs
  split at hs
  · cases hs
    exact hI
  · rename_i hguard
    split at hs
    · exact Except.noConfusion hs
    · split at hs
      · exact Except.noConfusion hs
      · split at hs
        · exact Except.noConfusion hs
        · split at hs
          · split at hs
            · split at hs
              · exact Except.noConfusion hs
              · rename_i hlen fpk heqf hzero
                cases hs
                intro d hd p hp
                simp only [] at hd
                rcases List.mem_append.mp hd with h1 | h2
                · exact b2pkVals_pyInsert_mono _ _ _
                    (emitNew_guard_fresh s x hguard) p (hI d h1 p hp)
                · rw [List.mem_singleton.mp h2] at hp
                  rw [alookup_pyInsert_self] at hp
                  have : p = fpk := (Value.int.inj (Option.some.inj hp)).symm
                  subst this
                  exact alookup_some_val_mem _ _ _ heqf
            · exact Except.noConfusion hs
          · cases hs
            intro d hd p hp
            simp only [] at hd
            rcases List.mem_append.mp hd with h1 | h2
            · exact b2pkVals_pyInsert_mono _ _ _
                (emitNew_guard_fresh s x hguard) p (hI d h1 p hp)
            · rw [List.mem_singleton.mp h2] at hp
              rw [newFamAttrs_father] at hp
              exact Value.noConfusion (Option.some.inj hp)

theorem emitNew_vals_inv (fam : Families) (rgl : List (List String × List GLNode))
    (todo : List Migration) (gc : String → String) (st0 ens : EmitNewState)
    (h : emitNewFamilies fam rgl todo gc st0 = Except.ok ens) :
    ∀ v ∈ b2pkVals ens.b2pk, v ∈ b2pkVals st0.b2pk ∨
      ∃ e ∈ ens.out, alookup "pk" e = some (Value.int v) := by
  refine foldE_inv (emitNewStep fam rgl todo gc)
    (fun s => ∀ v ∈ b2pkVals s.b2pk, v ∈ b2pkVals st0.b2pk ∨
      ∃ e ∈ s.out, alookup "pk" e = some (Value.int v)) ?_ (sortedBranches fam) st0 ens h
    (fun v hv => Or.inl hv)
  intro s x s2 hs hI
  unfold emitNewStep at hs
  split at hs
  · cases hs
    exact hI
  · rename_i hguard
    split at hs
    · exact Except.noConfusion hs
    · split at hs
      · exact Except.noConfusion hs
      · split at hs
        · exact Except.noConfusion hs
        · rename_i last hlast
          split at hs
          · split at hs
            · rename_i fpk hfpk
              split at hs
              · exact Except.noConfusion hs
              · cases hs
                intro v hv
                simp only [] at hv
                rcases b2pkVals_pyInsert _ _ _ _ hv with h1 | h2
                · rcases hI v h1 with h3 | ⟨e, he, hpe⟩
                  · exact Or.inl h3
                  · exact Or.inr ⟨e, List.mem_append.mpr (Or.inl he), hpe⟩
                · subst h2
                  refine Or.inr ⟨pyInsert (newFamAttrs gc (s.maxid + 1) last)
                    "father_pk" (Value.int fpk),
                    List.mem_append.mpr (Or.inr (by simp)), ?_⟩
                  rw [pk_pyInsert_ne _ _ _ (by decide)]
                  exact newFamAttrs_pk _ _ _
            · exact Except.noConfusion hs
          · cases hs
            intro v hv
            simp only [] at hv
            rcases b2pkVals_pyInsert _ _ _ _ hv with h1 | h2
            · rcases hI v h1 with h3 | ⟨e, he, hpe⟩
              · exact Or.inl h3
              · exact Or.inr ⟨e, List.mem_append.mpr (Or.inl he), hpe⟩
            · subst h2
              exact Or.inr ⟨newFamAttrs gc (s.maxid + 1) last,
                List.mem_append.mpr (Or.inr (by simp)), newFamAttrs_pk _ _ _⟩

theorem fatherRefsEarlierOr_snoc (allowed : List Nat) :
    ∀ (out pre : List Instr) (d : Instr),
      fatherRefsEarlierOr allowed pre out = true →
      (∀ p, alookup "father_pk" d = some (Value.int p) →
        allowed.contains p = true ∨ ∃ e ∈ pre ++ out, alookup "pk" e = some (Value.int p)) →
      fatherRefsEarlierOr allowed pre (out ++ [d]) = true := by
  intro out
  induction out with
  | nil =>
    intro pre d _ hcond
    simp only [List.nil_append, fatherRefsEarlierOr]
    rw [Bool.and_eq_true]
    refine ⟨?_, rfl⟩
    cases hf : alookup "father_pk" d with
    | none => rfl
    | some v =>
      cases v with
      | int p =>
        rcases hcond p hf with h1 | ⟨e, he, hpe⟩
        · rw [Bool.or_eq_true]
          exact Or.inl h1
        · rw [Bool.or_eq_true]
          refine Or.inr (List.any_eq_true.mpr ⟨e, by simpa using he, ?_⟩)
          exact decide_eq_true hpe
      | str sv => rfl
      | bool bv => rfl
      | null => rfl
  | cons x rest ih =>
    intro pre d h1 hcond
    simp only [List.cons_append, fatherRefsEarlierOr] at h1 ⊢
    rw [Bool.and_eq_true] at h1 ⊢
    refine ⟨h1.1, ?_⟩
    refine ih (pre ++ [x]) d h1.2 ?_
    intro p hp
    rcases hcond p hp with h2 | ⟨e, he, hpe⟩
    · exact Or.inl h2
    · refine Or.inr ⟨e, ?_, hpe⟩
      rw [List.append_assoc]
      simpa using he

theorem emitNew_checker (fam : Families) (rgl : List (List String × List GLNode))
    (todo : List Migration) (gc : String → String) (maxid0 : Nat)
    (b2pk0 : List (Branch × Nat)) (lnames0 : List (Nat × String)) (ens : EmitNewState)
    (h : emitNewFamilies fam rgl todo gc (EmitNewState.mk maxid0 b2pk0 lnames0 []) =
      Except.ok ens)
    (hcov : ∀ v ∈ b2pkVals b2pk0, (matchedPks todo).contains v = true) :
    fatherRefsEarlierOr (matchedPks todo) [] ens.out = true := by
  have hmain := foldE_inv (emitNewStep fam rgl todo gc)
    (fun s => fatherRefsEarlierOr (matchedPks todo) [] s.out = true ∧
      ∀ v ∈ b2pkVals s.b2pk, (matchedPks todo).contains v = true ∨
        ∃ e ∈ s.out, alookup "pk" e = some (Value.int v)) ?_ (sortedBranches fam) _
    ens h ⟨rfl, fun v hv => Or.inl (hcov v hv)⟩
  · exact hmain.1
  · intro s x s2 hs hI
    unfold emitNewStep at hs
    split at hs
    · cases hs
      exact hI
    · rename_i hguard
      split at hs
      · exact Except.noConfusion hs
      · split at hs
        · exact Except.noConfusion hs
        · split at hs
          · exact Except.noConfusion hs
          · rename_i last hlast
            split at hs
            · rename_i hlen
              split at hs
              · rename_i fpk heqf
                split at hs
                · exact Except.noConfusion hs
                · cases hs
                  constructor
                  · refine fatherRefsEarlierOr_snoc _ _ _ _ hI.1 ?_
                    intro p hp
                    rw [alookup_pyInsert_self] at hp
                    have : p = fpk := (Value.int.inj (Option.some.inj hp)).symm
                    subst this
                    rw [alookup_pyInsert_ne _ _ _ _ (dropLast_ne_self x hlen)] at heqf
                    rcases hI.2 p (alookup_some_val_mem _ _ _ heqf) with h1 | ⟨e, he, hpe⟩
                    · exact Or.inl h1
                    · exact Or.inr ⟨e, by simpa using he, hpe⟩
                  · intro v hv
                    simp only [] at hv
                    rcases b2pkVals_pyInsert _ _ _ _ hv with h1 | h2
                    · rcases hI.2 v h1 with h3 | ⟨e, he, hpe⟩
                      · exact Or.inl h3
                      · exact Or.inr ⟨e, List.mem_append.mpr (Or.inl he), hpe⟩
                    · subst h2
                      refine Or.inr ⟨pyInsert (newFamAttrs gc (s.maxid + 1) last)
                        "father_pk" (Value.int fpk),
                        List.mem_append.mpr (Or.inr (by simp)), ?_⟩
                      rw [pk_pyInsert_ne _ _ _ (by decide)]
                      exact newFamAttrs_pk _ _ _
              · exact Except.noConfusion hs
            · cases hs
              constructor
              · refine fatherRefsEarlierOr_snoc _ _ _ _ hI.1 ?_
                intro p hp
                rw [newFamAttrs_father] at hp
                exact Value.noConfusion (Option.some.inj hp)
              · intro v hv
                simp only [] at hv
                rcases b2pkVals_pyInsert _ _ _ _ hv with h1 | h2
                · rcases hI.2 v h1 with h3 | ⟨e, he, hpe⟩
                  · exact Or.inl h3
                  · exact Or.inr ⟨e, List.mem_append.mpr (Or.inl he), hpe⟩
                · subst h2
                  exact Or.inr ⟨newFamAttrs gc (s.maxid + 1) last,
                    List.mem_append.mpr (Or.inr (by simp)),
                    newFamAttrs_pk _ _ _⟩

theorem emitUpdRetire_emits (b2pk : List (Branch × Nat)) (attrs : Instr)
    (out : List Instr) (m : Migration) (out2 : List Instr) (v : Value)
    (h : emitUpdRetire b2pk attrs out m = Except.ok out2)
    (hpk : alookup "pk" attrs = some v) :
    ∃ e, out2 = out ++ [e] ∧ alookup "pk" e = some v := by
  unfold emitUpdRetire at h
  split at h
  · split at h
    · cases h
      refine ⟨_, rfl, ?_⟩
      rw [pk_pyInsert_ne _ _ _ (by decide)]
      exact hpk
    · split at h
      · cases h
        refine ⟨_, rfl, ?_⟩
        rw [pk_pyInsert_ne _ _ _ (by decide), pk_pyInsert_ne _ _ _ (by decide)]
        exact hpk
      · exact Except.noConfusion h
  · cases h
    refine ⟨_, rfl, ?_⟩
    rw [pk_pyInsert_ne _ _ _ (by decide)]
    exact hpk

theorem emitUpdStep_emits (lnames : List (Nat × String)) (b2pk : List (Branch × Nat))
    (out : List Instr) (m : Migration) (out2 : List Instr)
    (h : emitUpdStep lnames b2pk out m = Except.ok out2) :
    ∃ e, out2 = out ++ [e] ∧ alookup "pk" e = some (Value.int m.pk) := by
  unfold emitUpdStep at h
  split at h
  · exact Except.noConfusion h
  · split at h
    · split at h
      · exact Except.noConfusion h
      · cases h
        refine ⟨_, rfl, ?_⟩
        rw [pk_pyInsert_ne _ _ _ (by decide), updRename_pk]
        split
        · rw [pk_pyInsert_ne _ _ _ (by decide)]
          exact updBase_pk _ _
        · exact updBase_pk _ _
      · split at h
        · exact Except.noConfusion h
        · cases h
          refine ⟨_, rfl, ?_⟩
          rw [pk_pyInsert_ne _ _ _ (by decide), updRename_pk]
          exact updBase_pk _ _
    · exact emitUpdRetire_emits _ _ _ _ _ _ h (updBase_pk _ _)
    · exact emitUpdRetire_emits _ _ _ _ _ _ h (updBase_pk _ _)

theorem foldE_upd_mono (lnames : List (Nat × String)) (b2pk : List (Branch × Nat)) :
    ∀ (todo : List Migration) (acc us : List Instr),
      foldE (emitUpdStep lnames b2pk) acc todo = Except.ok us →
      ∀ e ∈ acc, e ∈ us := by
  intro todo
  induction todo with
  | nil =>
    intro acc us h e he
    cases h
    exact he
  | cons m rest ih =>
    intro acc us h e he
    simp only [foldE] at h
    split at h
    · rename_i out1 hout1
      obtain ⟨e2, he2, _⟩ := emitUpdStep_emits _ _ _ _ _ hout1
      refine ih out1 us h e ?_
      rw [he2]
      exact List.mem_append.mpr (Or.inl he)
    · exact Except.noConfusion h

theorem emitUpdates_pks_aux (lnames : List (Nat × String)) (b2pk : List (Branch × Nat)) :
    ∀ (todo : List Migration) (acc us : List Instr),
      foldE (emitUpdStep lnames b2pk) acc todo = Except.ok us →
      ∀ m ∈ todo, ∃ e ∈ us, alookup "pk" e = some (Value.int m.pk) := by
  intro todo
  induction todo with
  | nil =>
    intro acc us _ m hm
    simp at hm
  | cons m0 rest ih =>
    intro acc us h m hm
    simp only [foldE] at h
    split at h
    · rename_i out1 hout1
      rcases List.mem_cons.mp hm with h1 | h2
      · subst h1
        obtain ⟨e, he, hpe⟩ := emitUpdStep_emits _ _ _ _ _ hout1
        refine ⟨e, ?_, hpe⟩
        refine foldE_upd_mono _ _ rest out1 us h e ?_
        rw [he]
        exact List.mem_append.mpr (Or.inr (by simp))
      · exact ih out1 us h m h2
    · exact Except.noConfusion h

theorem emitUpdates_pks (todo : List Migration) (lnames : List (Nat × String))
    (b2pk : List (Branch × Nat)) (us : List Instr)
    (h : emitUpdates todo lnames b2pk = Except.ok us) :
    ∀ p ∈ matchedPks todo, ∃ e ∈ us, alookup "pk" e = some (Value.int p) := by
  intro p hp
  obtain ⟨m, hm, rfl⟩ := matchedPks_mem todo p hp
  exact emitUpdates_pks_aux lnames b2pk todo [] us h m hm

/-- Claim C1, amended: every emitted instruction carrying an integer
`father_pk` references the pk of an instruction that appears somewhere in
the output list, but not necessarily earlier: update instructions of
matched old nodes are emitted after the new-family block, so a new
family's `father_pk` may point at a later instruction (the
counterexample). Within the new-family block, which is emitted in
breadth-first branch order, every `father_pk` references either a matched
old node's pk or the pk of an earlier new-family instruction, and every
matched old node's pk does appear on an update instruction of the
stream. -/
theorem mainEmit_father_refs (inp : MainInput) (out : List Instr)
    (h : mainEmit inp = Except.ok out) :
    (∀ d ∈ out, ∀ p, alookup "father_pk" d = some (Value.int p) →
      ∃ e ∈ out, alookup "pk" e = some (Value.int p)) ∧
    (∀ fam rgl todo gc maxid0 b2pk0 lnames0 ens,
      emitNewFamilies fam rgl todo gc (EmitNewState.mk maxid0 b2pk0 lnames0 []) =
        Except.ok ens →
      (∀ v ∈ b2pkVals b2pk0, (matchedPks todo).contains v = true) →
      fatherRefsEarlierOr (matchedPks todo) [] ens.out = true) ∧
    (∀ todo lnames b2pk us, emitUpdates todo lnames b2pk = Except.ok us →
      ∀ p ∈ matchedPks todo, ∃ e ∈ us, alookup "pk" e = some (Value.int p)) := by
  refine ⟨?_, ?_, ?_⟩
  · unfold mainEmit at h
    split at h
    · exact Except.noConfusion h
    · split at h
      · exact Except.noConfusion h
      · split at h
        rename_i fam3 langs3 hlof
        split at h
        · exact Except.noConfusion h
        · split at h
          · exact Except.noConfusion h
          · rename_i todo htodo
            split at h
            · exact Except.noConfusion h
            · rename_i b2pk0 hb2pk0
              split at h
              · exact Except.noConfusion h
              · rename_i ens hens
                split at h
                · exact Except.noConfusion h
                · rename_i updates hupdates
                  split at h
                  · exact Except.noConfusion h
                  · rename_i langInstrs hlang
                    cases h
                    have hresolve : ∀ p, p ∈ b2pkVals ens.b2pk →
                        ∃ e, (e ∈ ens.out ∨ e ∈ updates) ∧
                          alookup "pk" e = some (Value.int p) := by
                      intro p hmem
                      rcases emitNew_vals_inv _ _ _ _ _ _ hens p hmem with h1 | ⟨e, he, hpe⟩
                      · have h2 := buildBranchToPk_vals _ _ hb2pk0 p h1
                        obtain ⟨e, he, hpe⟩ := emitUpdates_pks _ _ _ _ hupdates p h2
                        exact ⟨e, Or.inr he, hpe⟩
                      · exact ⟨e, Or.inl he, hpe⟩
                    intro d hd p hp
                    have hembed : ∀ e, (e ∈ ens.out ∨ e ∈ updates) →
                        e ∈ (newLanguages inp.codes inp.coords inp.gc langs3 inp.maxid).out ++
                          ens.out ++ updates ++ langInstrs ++
                          emitNocode inp.nocodeRows langs3 := by
                      intro e he
                      rcases he with h1 | h2
                      · exact List.mem_append.mpr (Or.inl (List.mem_append.mpr (Or.inl
                          (List.mem_append.mpr (Or.inl (List.mem_append.mpr (Or.inr h1)))))))
                      · exact List.mem_append.mpr (Or.inl (List.mem_append.mpr (Or.inl
                          (List.mem_append.mpr (Or.inr h2)))))
                    rcases List.mem_append.mp hd with hd4 | hd5
                    rcases List.mem_append.mp hd4 with hd3 | hd35
                    rcases List.mem_append.mp hd3 with hd2 | hd25
                    rcases List.mem_append.mp hd2 with hd1 | hd15
                    · rw [newLanguages_father _ _ _ _ _ d hd1] at hp
                      exact Value.noConfusion (Option.some.inj hp)
                    · obtain ⟨e, he, hpe⟩ := hresolve p
                        (emitNew_father_inv _ _ _ _ _ _ hens
                          (by intro d2 hd2; simp at hd2) d hd15 p hp)
                      exact ⟨e, hembed e he, hpe⟩
                    · obtain ⟨e, he, hpe⟩ := hresolve p
                        (emitUpdates_father _ _ _ _ hupdates d hd25 p hp)
                      exact ⟨e, hembed e he, hpe⟩
                    · obtain ⟨e, he, hpe⟩ := hresolve p
                        (emitLanguageUpdates_father _ _ _ _ _ _ _ hlang d hd35 p hp)
                      exact ⟨e, hembed e he, hpe⟩
                    · rw [emitNocode_father _ _ d hd5] at hp
                      exact Value.noConfusion (Option.some.inj hp)
  · intro fam rgl todo gc maxid0 b2pk0 lnames0 ens hens hcov
    exact emitNew_checker fam rgl todo gc maxid0 b2pk0 lnames0 ens hens hcov
  · intro todo lnames b2pk us hus
    exact emitUpdates_pks todo lnames b2pk us hus

/-- Witness for the amended C1 on the concrete input `mainX`: the first
instruction of `mainXOut` (the new subfamily, pk 11) carries
`father_pk = 10`, and some instruction of the list indeed carries
`pk = 10`. -/
theorem mainEmit_father_refs_witness :
    ∃ e ∈ mainXOut, alookup "pk" e = some (Value.int 10) :=
  (mainEmit_father_refs mainX mainXOut (by decide)).1
    [("pk", Value.int 11), ("level", Value.str "family"), ("active", Value.bool true),
     ("father_pk", Value.int 10), ("status", Value.str "established"),
     ("id", Value.str "G"), ("name", Value.str "G"), ("hname", Value.str "G")]
    (by decide) 10 (by decide)

end G3
